import Mathlib

/-!
# Verification of the route_planner core

A shallow embedding of the route_planner C++ repository (graph data model,
nearest-node locator, A* search engine with pluggable cost model, traffic
overrides) together with proofs and refutations of the specification claims.

Modelling conventions:
* C++ `double` is modelled by `ℚ`; the `std::numeric_limits<double>::infinity()`
  default of `NodeState::g_score` and the queue priorities are modelled by
  `WithTop ℚ` (`⊤` = infinity).  Division by zero, which yields `inf`/`nan`
  on doubles, yields `0` in `ℚ`; no claim below depends on that corner.
* `int64_t` node ids are modelled by `ℤ` (no arithmetic is ever performed on
  ids, only equality, so overflow is irrelevant).
* `utils::haversine_distance` is a fixed pure function built from `sin`, `cos`,
  `atan2` and `sqrt`; the embedding abstracts it as an arbitrary function
  `hav : ℚ → ℚ → ℚ → ℚ → ℚ`, so every theorem quantified over `hav` holds in
  particular for the real haversine formula.
* `std::unordered_map` is modelled by a function into `Option`;
  `std::priority_queue` by a list from which `popMin` removes the first entry
  of minimal `f`-value (`std::priority_queue` pops some entry of minimal
  `f`-value; the tie order among equal priorities is unspecified by the C++
  standard, and no claim below depends on it).
* The unbounded C++ loops (`AStarPlanner::plan`'s frontier loop and
  `reconstruct_path`'s predecessor walk) are modelled with an explicit fuel
  parameter; `none` means the loop did not finish within the supplied fuel.
-/

namespace RoutePlanner

/- Restore default reducibility of the rational operations inside this file,
so that concrete runs of the embedded functions can be evaluated by `decide`
(the kernel computes them either way; this only lets the elaborator see it). -/
attribute [local semireducible] Rat.mul Rat.add Rat.inv Rat.sub Rat.ofScientific

/-! ## Data model (include/route_planner/types.hpp) -/

/-- `route_planner::Coordinates`. -/
structure Coordinates where
  latitude : ℚ
  longitude : ℚ
deriving DecidableEq

/-- `route_planner::Node`. -/
structure Node where
  id : ℤ
  latitude : ℚ
  longitude : ℚ
deriving DecidableEq

/-- `route_planner::Edge` (types.hpp): required source/target/distance plus
the optional OSM attributes. -/
structure Edge where
  source : ℤ
  target : ℤ
  distance : ℚ
  max_speed : Option ℚ := none
  highway_type : Option String := none
  name : Option String := none
  oneway : Bool := false
deriving DecidableEq

/-- `TrafficModification::Type`. -/
inductive TMType where
  | SPEED_OVERRIDE
  | MULTIPLIER
deriving DecidableEq

/-- `route_planner::TrafficModification`. -/
structure TrafficModification where
  type : TMType
  value : ℚ
deriving DecidableEq

/-- `route_planner::TrafficConfig`: the per-edge override table, keyed by
`"source_id-target_id"` strings. -/
structure TrafficConfig where
  edge_modifications : String → Option TrafficModification

/-- The slice of `route_planner::Config` the core consumes: the
`highway_speeds` table of `config.yaml` (`Config::get_highway_speed`). -/
structure Config where
  highway_speeds : String → Option ℚ

/-- `Config::get_highway_speed` (config.cpp): the configured value when the
highway type is present in the table, otherwise the fallback speed. -/
def Config.get_highway_speed (c : Config) (highway_type : String)
    (fallback_speed : ℚ) : ℚ :=
  match c.highway_speeds highway_type with
  | some v => v
  | none => fallback_speed

/-! ## Graph (src/graph.cpp) -/

/-- `route_planner::Graph`: the node map and the edge list.  The adjacency
list is derived deterministically from the edges (`Graph::init` always calls
`build_adjacency_list`), so it is a function below rather than a field. -/
structure Graph where
  nodes : ℤ → Option Node
  edges : List Edge

/-- `Graph::get_node`: `nullptr` is modelled by `none`. -/
def Graph.get_node (g : Graph) (id : ℤ) : Option Node := g.nodes id

/-- One `push_back` of edge index `i` onto the adjacency bucket of `key`. -/
def adjInsert (adj : ℤ → List ℕ) (key : ℤ) (i : ℕ) : ℤ → List ℕ :=
  fun x => if x = key then adj x ++ [i] else adj x

/-- The loop body of `Graph::build_adjacency_list`: edge `i` is appended to
its source's bucket, and to its target's bucket when it is not one-way. -/
def build_adjacency_go : List Edge → ℕ → (ℤ → List ℕ) → ℤ → List ℕ
  | [], _, adj => adj
  | e :: rest, i, adj =>
    let adj1 := adjInsert adj e.source i
    let adj2 := if e.oneway then adj1 else adjInsert adj1 e.target i
    build_adjacency_go rest (i + 1) adj2

/-- `Graph::build_adjacency_list` (graph.cpp): node id → indices into the
edge list, in edge order. -/
def Graph.adjacency_list (g : Graph) : ℤ → List ℕ :=
  build_adjacency_go g.edges 0 (fun _ => [])

/-- `Graph::get_outgoing_edges` (graph.cpp): the special id `-1` yields the
whole edge list; otherwise the adjacency bucket is dereferenced.  Indices
produced by `build_adjacency_list` are always in bounds, so the `filterMap`
drops nothing. -/
def Graph.get_outgoing_edges (g : Graph) (node_id : ℤ) : List Edge :=
  if node_id = -1 then g.edges
  else (g.adjacency_list node_id).filterMap (fun i => g.edges[i]?)

/-! ## Cost model (src/astar_planner.cpp) -/

/-- `route_planner::CostFunction`. -/
inductive CostFunction where
  | DISTANCE
  | TIME
deriving DecidableEq

/-- The effective-speed resolution and time formula shared (by textual
duplication in the C++) between `AStarPlanner::calculate_edge_cost`'s `TIME`
branch and the per-edge time computation in `AStarPlanner::reconstruct_path`:
miles = distance / 1609.34; speed = explicit `max_speed` (with the `> 80` ⇒
km/h sniffing), else the config highway-type lookup when a config is present,
else the default; seconds = miles / speed * 3600. -/
def time_cost_body (cfg : Option Config) (default_speed_mph : ℚ) (e : Edge) : ℚ :=
  let distance_miles := e.distance / 1609.34
  let speed_mph : ℚ :=
    match e.max_speed with
    | some max_speed => if max_speed > 80 then max_speed * 0.621371 else max_speed
    | none =>
      match cfg, e.highway_type with
      | some c, some ht => c.get_highway_speed ht default_speed_mph
      | _, _ => default_speed_mph
  distance_miles / speed_mph * 3600

/-- `AStarPlanner::calculate_edge_cost`.  The C++ `default:` case is
unreachable for the two-value `enum class CostFunction`. -/
def calculate_edge_cost (cost_function : CostFunction) (cfg : Option Config)
    (default_speed_mph : ℚ) (e : Edge) : ℚ :=
  match cost_function with
  | .DISTANCE => e.distance / 1000
  | .TIME => time_cost_body cfg default_speed_mph e

/-- The two node lookups performed (and dereferenced without a null check!)
at the top of `AStarPlanner::heuristic`; `none` marks the situation in which
the C++ dereferences a null pointer (claim C4). -/
def heuristic_nodes (g : Graph) (current_id goal_id : ℤ) : Option (Node × Node) :=
  match g.get_node current_id, g.get_node goal_id with
  | some c, some gl => some (c, gl)
  | _, _ => none

/-- `AStarPlanner::heuristic`.  On a node-lookup miss the C++ behaviour is
undefined (null dereference); the embedding totalizes that branch to `0`.
Claims about well-formed graphs never reach it. -/
def heuristic (hav : ℚ → ℚ → ℚ → ℚ → ℚ) (cost_function : CostFunction)
    (default_speed_mph : ℚ) (g : Graph) (current_id goal_id : ℤ) : ℚ :=
  match heuristic_nodes g current_id goal_id with
  | none => 0
  | some (current, goal) =>
    let distance_km := hav current.latitude current.longitude goal.latitude goal.longitude
    match cost_function with
    | .DISTANCE => distance_km
    | .TIME =>
      let highway_speed_mph := max default_speed_mph 55
      let distance_miles := distance_km * 0.621371
      distance_miles / highway_speed_mph * 3600

/-! ## Nearest-node locator (src/planner.cpp) -/

/-- The inner body of `Planner::find_nearest_node`: consider one candidate
node id (`edge->source` or `edge->target`); skip it when `get_node` misses;
otherwise keep it when its haversine distance beats the running minimum
(`none` models the initial `infinity`). -/
def consider_node (hav : ℚ → ℚ → ℚ → ℚ → ℚ) (g : Graph) (coord : Coordinates)
    (st : ℤ × Option ℚ) (node_id : ℤ) : ℤ × Option ℚ :=
  match g.get_node node_id with
  | none => st
  | some node =>
    let dist := hav coord.latitude coord.longitude node.latitude node.longitude
    match st.2 with
    | none => (node_id, some dist)
    | some m => if dist < m then (node_id, some dist) else st

/-- `Planner::find_nearest_node` (planner.cpp): a linear scan over
`get_outgoing_edges(-1)` — i.e. over all edges — checking both endpoints of
every edge; `-1` is returned when no candidate was ever found. -/
def find_nearest_node (hav : ℚ → ℚ → ℚ → ℚ → ℚ) (g : Graph)
    (coord : Coordinates) : ℤ :=
  ((g.get_outgoing_edges (-1)).foldl
    (fun st e => consider_node hav g coord (consider_node hav g coord st e.source) e.target)
    ((-1 : ℤ), (none : Option ℚ))).1

/-! ## Planner result (include/route_planner/planner.hpp + astar_planner.cpp)

The struct declared in planner.hpp carries only `success`, `path`,
`total_distance` and `num_nodes_explored`; astar_planner.cpp and main.cpp
additionally assign and read `total_time` and `cost_function` (claim C8).
The embedding carries all six fields so that the .cpp logic is expressible. -/

/-- `route_planner::PlannerResult` as used by astar_planner.cpp / main.cpp.
The defaults are the C++ member initializers (a default-constructed result is
the failure result). -/
structure PlannerResult where
  success : Bool := false
  path : List ℤ := []
  total_distance : ℚ := 0
  total_time : ℚ := 0
  num_nodes_explored : ℕ := 0
  cost_function : String := ""
deriving DecidableEq

/-- The member list of `struct PlannerResult` as declared in
include/route_planner/planner.hpp, lines 13–18. -/
def planner_hpp_result_fields : List String :=
  ["success", "path", "total_distance", "num_nodes_explored"]

/-- The fields assigned to the result in `AStarPlanner::reconstruct_path`
(astar_planner.cpp lines 252–258) and read back by main.cpp — the output
contract of spec §3. -/
def result_contract_fields : List String :=
  ["success", "path", "total_distance", "total_time", "num_nodes_explored",
   "cost_function"]

/-! ## A* search engine (src/astar_planner.cpp) -/

/-- `AStarPlanner::NodeState`: best known cost from the start and the
predecessor that achieved it.  The C++ member initializers are
`g_score = infinity` (`⊤`) and `parent_id = -1`. -/
structure NodeState where
  g_score : WithTop ℚ
  parent_id : ℤ
deriving DecidableEq

/-- The default-constructed `NodeState` produced by `unordered_map::operator[]`
on a missing key. -/
def defaultNodeState : NodeState := ⟨⊤, -1⟩

/-- `AStarPlanner::QueueEntry`: `f_value` is `g + h`, fixed at construction. -/
structure QueueEntry where
  node_id : ℤ
  g_value : WithTop ℚ
  f_value : WithTop ℚ
deriving DecidableEq

/-- The `QueueEntry(id, g, h)` constructor: stores `f = g + h`. -/
def QueueEntry.make (id : ℤ) (g : WithTop ℚ) (h : ℚ) : QueueEntry :=
  ⟨id, g, g + (h : WithTop ℚ)⟩

/-- Pop the first entry of minimal `f_value` from the open list.  This is one
admissible behaviour of `std::priority_queue` under `QueueEntry::operator<`
(which orders by larger-`f` = lower priority and leaves ties unspecified). -/
def popMin : List QueueEntry → Option (QueueEntry × List QueueEntry)
  | [] => none
  | e :: rest =>
    match popMin rest with
    | none => some (e, rest)
    | some (b, rest') =>
      if e.f_value ≤ b.f_value then some (e, rest) else some (b, e :: rest')

/-- The map read `node_states[id]` when the key is known to be present (or
when the C++ defaults are the intended result): `operator[]` inserts and
returns a default-constructed `NodeState` on a miss. -/
def getState (states : ℤ → Option NodeState) (n : ℤ) : NodeState :=
  (states n).getD defaultNodeState

/-- The map write `node_states[id] = v`. -/
def updState (states : ℤ → Option NodeState) (n : ℤ) (v : NodeState) :
    ℤ → Option NodeState :=
  fun x => if x = n then some v else states x

/-- The pluggable pieces handed to `AStarPlanner` before `plan` runs:
`set_cost_function(cost_func, default_speed_mph)`, `set_config(config)`, and
the geometry utility `utils::haversine_distance` (abstracted, see the header
comment). -/
structure PlannerParams where
  hav : ℚ → ℚ → ℚ → ℚ → ℚ
  cost_function : CostFunction
  default_speed_mph : ℚ
  config : Option Config

/-- The per-invocation search state of `AStarPlanner::plan`: the frontier,
the per-node `NodeState` map and the pop counter. -/
structure LoopState where
  open_set : List QueueEntry
  node_states : ℤ → Option NodeState
  nodes_explored : ℕ

/-- The neighbour determination of `AStarPlanner::plan` (lines 115–122):
follow the edge forward from its source, backward only when it is not
one-way, and otherwise skip it. -/
def edge_neighbor (e : Edge) (current_id : ℤ) : Option ℤ :=
  if e.source = current_id then some e.target
  else if e.oneway = false ∧ e.target = current_id then some e.source
  else none

/-- The body of the neighbour loop in `AStarPlanner::plan` (lines 113–137)
for a single edge: determine the neighbour respecting one-way direction,
compute `tentative_g`, and on improvement record the new state and push a
frontier entry.  `acc` carries the evolving `node_states` and the list of
entries pushed so far during this expansion. -/
def relax (P : PlannerParams) (g : Graph) (goal_id current_id : ℤ)
    (acc : (ℤ → Option NodeState) × List QueueEntry) (e : Edge) :
    (ℤ → Option NodeState) × List QueueEntry :=
  match edge_neighbor e current_id with
  | none => acc
  | some neighbor_id =>
    let tentative_g : WithTop ℚ :=
      (getState acc.1 current_id).g_score +
        (calculate_edge_cost P.cost_function P.config P.default_speed_mph e : WithTop ℚ)
    let better : Bool :=
      match acc.1 neighbor_id with
      | none => true
      | some st => decide (tentative_g < st.g_score)
    if better then
      let states' := updState acc.1 neighbor_id ⟨tentative_g, current_id⟩
      let h := heuristic P.hav P.cost_function P.default_speed_mph g neighbor_id goal_id
      (states', acc.2 ++ [QueueEntry.make neighbor_id tentative_g h])
    else acc

/-- The full neighbour expansion of a freshly popped node: fold `relax` over
`get_outgoing_edges(current_id)`; the pushed entries join the frontier. -/
def expand (P : PlannerParams) (g : Graph) (goal_id current_id : ℤ)
    (rest : List QueueEntry) (states : ℤ → Option NodeState)
    (explored : ℕ) : LoopState :=
  let sp := (g.get_outgoing_edges current_id).foldl (relax P g goal_id current_id) (states, [])
  ⟨rest ++ sp.2, sp.1, explored⟩

/-- The walk of predecessor links in `AStarPlanner::reconstruct_path`
(lines 176–188), building the node list in goal→start order.  The outer
`none` means the supplied fuel was insufficient (the C++ loop is unbounded);
`some none` is the defensive `node_states.find == end` failure. -/
def walkParents (states : ℤ → Option NodeState) : ℕ → ℤ → Option (Option (List ℤ))
  | 0, _ => none
  | fuel + 1, current =>
    if current = -1 then some (some [])
    else
      match states current with
      | none => some none
      | some st =>
        match walkParents states fuel st.parent_id with
        | none => none
        | some none => some none
        | some (some rest) => some (some (current :: rest))

/-- The edge condition of the metric loop in `reconstruct_path` (lines
210–211): forward match, or reverse match on a non-one-way edge. -/
def edge_match (from_id to_id : ℤ) (e : Edge) : Bool :=
  (decide (e.source = from_id) && decide (e.target = to_id)) ||
    (!e.oneway && decide (e.target = from_id) && decide (e.source = to_id))

/-- The inner edge search of the metric loop: the first edge of
`get_outgoing_edges(from_id)` matching `edge_match` (the C++ `break`s at the
first hit). -/
def find_connecting_edge (g : Graph) (from_id to_id : ℤ) : Option Edge :=
  (g.get_outgoing_edges from_id).find? (edge_match from_id to_id)

/-- The metric loop of `reconstruct_path` (lines 200–250): re-resolve the
connecting edge of every consecutive path pair and accumulate its stored
length and its recomputed time cost; `none` is the `!found_edge` failure. -/
def accumulate_metrics (P : PlannerParams) (g : Graph) : List ℤ → Option (ℚ × ℚ)
  | [] => some (0, 0)
  | [_] => some (0, 0)
  | a :: b :: rest =>
    match find_connecting_edge g a b with
    | none => none
    | some e =>
      match accumulate_metrics P g (b :: rest) with
      | none => none
      | some dt =>
        some (e.distance + dt.1, time_cost_body P.config P.default_speed_mph e + dt.2)

/-- `AStarPlanner::reconstruct_path` (lines 171–260).  The result's
`num_nodes_explored` is `0` here and overwritten by the caller, exactly as in
the C++.  A `none` result means the predecessor walk exceeded the model fuel
(the C++ would still be looping). -/
def reconstruct_path (P : PlannerParams) (g : Graph)
    (states : ℤ → Option NodeState) (start_id goal_id : ℤ)
    (walk_fuel : ℕ) : Option PlannerResult :=
  match walkParents states walk_fuel goal_id with
  | none => none
  | some none => some {}
  | some (some path0) =>
    match path0.getLast? with
    | none => some {}
    | some last =>
      if last = start_id then
        let path := path0.reverse
        match accumulate_metrics P g path with
        | none => some {}
        | some dt =>
          some { success := true, path := path, total_distance := dt.1,
                 total_time := dt.2, num_nodes_explored := 0,
                 cost_function :=
                   match P.cost_function with
                   | .DISTANCE => "distance"
                   | .TIME => "time" }
      else some {}

/-- One iteration of `AStarPlanner::plan`'s frontier loop (lines 93–138). -/
inductive StepOut where
  | done (r : PlannerResult)
  | next (s : LoopState)

/-- One iteration of the frontier loop: pop the best entry (`none` frontier ⇒
failure result), count it, check the goal *first* (line 101), then the lazy
stale check (line 108), else expand.  The outer `none` marks insufficient
walk fuel inside `reconstruct_path`. -/
def planStep (P : PlannerParams) (g : Graph) (start_id goal_id : ℤ)
    (walk_fuel : ℕ) (s : LoopState) : Option StepOut :=
  match popMin s.open_set with
  | none => some (.done {})
  | some (current, rest) =>
    let explored := s.nodes_explored + 1
    if current.node_id = goal_id then
      match reconstruct_path P g s.node_states start_id goal_id walk_fuel with
      | none => none
      | some r => some (.done { r with num_nodes_explored := explored })
    else if (getState s.node_states current.node_id).g_score < current.g_value then
      some (.next ⟨rest, s.node_states, explored⟩)
    else
      some (.next (expand P g goal_id current.node_id rest s.node_states explored))

/-- Iterate `planStep` for at most `fuel` iterations. -/
def runLoop (P : PlannerParams) (g : Graph) (start_id goal_id : ℤ)
    (walk_fuel : ℕ) : ℕ → LoopState → Option PlannerResult
  | 0, _ => none
  | fuel + 1, s =>
    match planStep P g start_id goal_id walk_fuel s with
    | none => none
    | some (.done r) => some r
    | some (.next s') => runLoop P g start_id goal_id walk_fuel fuel s'

/-- The initial search state of `AStarPlanner::plan` (lines 81–89):
`node_states[start] = {0, -1}` and the seeded frontier entry. -/
def initState (P : PlannerParams) (g : Graph) (start_id goal_id : ℤ) : LoopState :=
  ⟨[QueueEntry.make start_id 0
      (heuristic P.hav P.cost_function P.default_speed_mph g start_id goal_id)],
   updState (fun _ => none) start_id ⟨0, -1⟩, 0⟩

/-- `AStarPlanner::plan` (lines 69–143): resolve both coordinates, fail fast
when either resolution yields `-1`, otherwise run the frontier loop.  `fuel`
bounds both the loop iterations and the predecessor walk; `none` means the
C++ would still be running at that budget. -/
def plan (P : PlannerParams) (g : Graph) (fuel : ℕ)
    (start_coord goal_coord : Coordinates) : Option PlannerResult :=
  let start_id := find_nearest_node P.hav g start_coord
  let goal_id := find_nearest_node P.hav g goal_coord
  if start_id = -1 ∨ goal_id = -1 then some {}
  else runLoop P g start_id goal_id fuel fuel (initState P g start_id goal_id)

/-- `AStarPlanner::get_name` / the `cost_function` label written by
`reconstruct_path`. -/
def cost_function_label (cf : CostFunction) : String :=
  match cf with
  | .DISTANCE => "distance"
  | .TIME => "time"

/-! ## Traffic overrides (src/data_loader.cpp) -/

/-- The override key `std::to_string(source) + "-" + std::to_string(target)`. -/
def edge_key (e : Edge) : String := toString e.source ++ "-" ++ toString e.target

/-- The speed the loader considers "current" before applying an override
(data_loader.cpp lines 199–209): the explicit limit with the same `> 80` ⇒
km/h conversion, else the highway-table lookup with hard-coded fallback 25,
else 25. -/
def loader_current_speed (cfg : Config) (e : Edge) : ℚ :=
  match e.max_speed with
  | some ms => if ms > 80 then ms * 0.621371 else ms
  | none =>
    match e.highway_type with
    | some ht => cfg.get_highway_speed ht 25
    | none => 25

/-- `DataLoader::apply_traffic_modifications` (data_loader.cpp lines
184–228): with no config the edge is untouched; with a matching override the
edge's `max_speed` becomes the override speed (absolute) or the scaled
current speed (multiplier), floored at 1 mph. -/
def apply_traffic_modifications (cfg : Option Config) (traffic : TrafficConfig)
    (e : Edge) : Edge :=
  match cfg with
  | none => e
  | some c =>
    match traffic.edge_modifications (edge_key e) with
    | none => e
    | some m =>
      let current_speed := loader_current_speed c e
      let modified_speed :=
        match m.type with
        | .SPEED_OVERRIDE => m.value
        | .MULTIPLIER => current_speed * m.value
      { e with max_speed := some (max modified_speed 1) }

/-! ## Derived definitions used by the verification -/

/-- Shorthand for the edge cost under the active planner parameters. -/
def ecost (P : PlannerParams) (e : Edge) : ℚ :=
  calculate_edge_cost P.cost_function P.config P.default_speed_mph e

/-- Shorthand for the heuristic value under the active planner parameters. -/
def hval (P : PlannerParams) (g : Graph) (goal_id n : ℤ) : ℚ :=
  heuristic P.hav P.cost_function P.default_speed_mph g n goal_id

/-- The bucket contribution of a suffix of the edge list starting at index
`i`: the indices `build_adjacency_go` appends for node `x`. -/
def localAdj : List Edge → ℕ → ℤ → List ℕ
  | [], _, _ => []
  | e :: rest, i, x =>
    ((if x = e.source then [i] else []) ++
      (if e.oneway = false ∧ x = e.target then [i] else [])) ++ localAdj rest (i + 1) x

/-- Modelled from the spec's wording of §4.2 (time mode), for comparison with
`calculate_edge_cost`: the effective speed, resolved in order with the first
match winning — (1) the edge's explicit speed limit, interpreted as km/h and
converted by `0.621371` when its value exceeds 80, otherwise taken as mph;
(2) the highway-type lookup in the supplied speed table, falling back to the
default speed when the tag is absent from the table; (3) the caller-supplied
default speed. -/
def spec_effective_speed (cfg : Option Config) (default_speed_mph : ℚ)
    (e : Edge) : ℚ :=
  match e.max_speed with
  | some v => if v > 80 then v * 0.621371 else v
  | none =>
    match cfg, e.highway_type with
    | some c, some ht =>
      match c.highway_speeds ht with
      | some s => s
      | none => default_speed_mph
    | _, _ => default_speed_mph

/-- Modelled from the spec's wording of §4.4/§8, for comparison with the
totals computed by `reconstruct_path`: the sum, over consecutive pairs of a
path, of the stored length of the re-resolved connecting edge (forward, or
reverse for non-one-way edges); `none` when some pair has no connecting
edge. -/
def spec_path_distance (g : Graph) : List ℤ → Option ℚ
  | [] => some 0
  | [_] => some 0
  | a :: b :: rest =>
    match find_connecting_edge g a b with
    | none => none
    | some e =>
      match spec_path_distance g (b :: rest) with
      | none => none
      | some d => some (e.distance + d)

/-- The candidate node ids scanned by `find_nearest_node`: both endpoints of
every edge, in scan order. -/
def endpoint_candidates (g : Graph) : List ℤ :=
  (g.get_outgoing_edges (-1)).foldr (fun e acc => e.source :: e.target :: acc) []

/-- The distance `find_nearest_node` computes for a candidate node. -/
def cdist (hav : ℚ → ℚ → ℚ → ℚ → ℚ) (coord : Coordinates) (node : Node) : ℚ :=
  hav coord.latitude coord.longitude node.latitude node.longitude

/-- An invariant of the nearest-node scan state: either nothing valid has
been seen yet (`min_dist` still infinite), or the recorded nearest id is a
real node whose distance is the recorded minimum. -/
def NearestStateOk (hav : ℚ → ℚ → ℚ → ℚ → ℚ) (g : Graph) (coord : Coordinates)
    (st : ℤ × Option ℚ) : Prop :=
  st.2 = none ∨ ∃ node, g.get_node st.1 = some node ∧ st.2 = some (cdist hav coord node)

/-- One traversal step of the search: some edge leads from `a` to `b`
respecting the one-way rule (`edge_neighbor`). -/
def traversable_step (g : Graph) (a b : ℤ) : Prop :=
  ∃ e ∈ g.edges, edge_neighbor e a = some b

/-- `b` is reachable from `a` by a traversable path. -/
def Connected (g : Graph) (a b : ℤ) : Prop :=
  Relation.ReflTransGen (traversable_step g) a b

/-- The attributes of an edge that the distance cost mode can observe:
source, target, stored length and the one-way flag (not the speed limit, the
highway tag or the name).  Claim C10. -/
def Edge.core (e : Edge) : ℤ × ℤ × ℚ × Bool :=
  (e.source, e.target, e.distance, e.oneway)

/-- The result projections claim C10 compares across runs: success flag,
path, total distance. -/
def ResultSim (r1 r2 : PlannerResult) : Prop :=
  r1.success = r2.success ∧ r1.path = r2.path ∧ r1.total_distance = r2.total_distance

/-- Pointwise `Edge.core` equality of two edge lists: the graphs agree on
everything the distance mode can observe. -/
def CoreEq (l1 l2 : List Edge) : Prop :=
  List.Forall₂ (fun e1 e2 => Edge.core e1 = Edge.core e2) l1 l2

/-- Result agreement on every field except `total_time` (the time metric the
reconstruction recomputes reads speed data even in distance mode). -/
def ResultAgree (r1 r2 : PlannerResult) : Prop :=
  r1.success = r2.success ∧ r1.path = r2.path ∧
    r1.total_distance = r2.total_distance ∧
    r1.num_nodes_explored = r2.num_nodes_explored ∧
    r1.cost_function = r2.cost_function

/-- Metric-pair agreement on the distance component. -/
def MetricsAgree (o1 o2 : Option (ℚ × ℚ)) : Prop :=
  (o1 = none ∧ o2 = none) ∨
    ∃ p1 p2, o1 = some p1 ∧ o2 = some p2 ∧ p1.1 = p2.1

/-- Optional-result agreement modulo `total_time`. -/
def OResultAgree (o1 o2 : Option PlannerResult) : Prop :=
  (o1 = none ∧ o2 = none) ∨
    ∃ r1 r2, o1 = some r1 ∧ o2 = some r2 ∧ ResultAgree r1 r2

/-- Loop-step agreement: both out of walk fuel, both done with agreeing
results, or both stepping to the same next state. -/
def StepAgree (o1 o2 : Option StepOut) : Prop :=
  (o1 = none ∧ o2 = none) ∨
    (∃ r1 r2, o1 = some (.done r1) ∧ o2 = some (.done r2) ∧ ResultAgree r1 r2) ∨
    (∃ s, o1 = some (.next s) ∧ o2 = some (.next s))

/-- One `.next` transition of the frontier loop (`walk_fuel` is irrelevant
for `.next` outcomes, so it is fixed to `0`). -/
def NextStep (P : PlannerParams) (g : Graph) (start_id goal_id : ℤ)
    (s s' : LoopState) : Prop :=
  planStep P g start_id goal_id 0 s = some (.next s')

/-- Search states reachable during one `plan` invocation with the given
resolved endpoints. -/
def Reachable (P : PlannerParams) (g : Graph) (start_id goal_id : ℤ)
    (s : LoopState) : Prop :=
  Relation.ReflTransGen (NextStep P g start_id goal_id)
    (initState P g start_id goal_id) s

/-- Exactly `j` `.next` transitions lead from `s` to `s'`. -/
def IterNext (P : PlannerParams) (g : Graph) (start_id goal_id : ℤ) :
    ℕ → LoopState → LoopState → Prop
  | 0, s, s' => s = s'
  | j + 1, s, s' => ∃ s'', NextStep P g start_id goal_id s s'' ∧
      IterNext P g start_id goal_id j s'' s'

/-- The frontier bookkeeping invariants of the loop (needed for claim C9):
every queued entry's `f` is its `g` plus the heuristic of its node; every
queued entry's node has a recorded state whose `g` is at most the entry's
`g`; and while the loop is running the goal, once recorded, always has a
fresh (non-stale) queue entry. -/
structure InvCore (P : PlannerParams) (g : Graph) (goal_id : ℤ)
    (s : LoopState) : Prop where
  f_eq : ∀ q ∈ s.open_set,
    q.f_value = q.g_value + (hval P g goal_id q.node_id : WithTop ℚ)
  entry_bound : ∀ q ∈ s.open_set,
    ∃ st, s.node_states q.node_id = some st ∧ st.g_score ≤ q.g_value
  goal_entry : ∀ st, s.node_states goal_id = some st →
    ∃ q ∈ s.open_set, q.node_id = goal_id ∧ q.g_value = st.g_score

/-- `n`'s predecessor chain in `states` reaches `start` in finitely many
steps. -/
inductive ReachesStart (states : ℤ → Option NodeState) (start : ℤ) : ℤ → Prop
  | base : ReachesStart states start start
  | step {n : ℤ} {st : NodeState} (hn : states n = some st) (hne : n ≠ start)
      (hp : ReachesStart states start st.parent_id) : ReachesStart states start n

/-- `m` lies on the predecessor chain of `n` (inclusive). -/
inductive OnChain (states : ℤ → Option NodeState) : ℤ → ℤ → Prop
  | refl (n : ℤ) : OnChain states n n
  | step {n m : ℤ} {st : NodeState} (hn : states n = some st)
      (hm : OnChain states st.parent_id m) : OnChain states n m

/-- All node ids an invocation's search state can ever record: the resolved
start plus every edge endpoint. -/
def endpointFinset (g : Graph) : Finset ℤ :=
  g.edges.foldr (fun e s => insert e.source (insert e.target s)) ∅

/-- See `endpointFinset`. -/
def nodeUniverse (g : Graph) (start_id : ℤ) : Finset ℤ :=
  insert start_id (endpointFinset g)

/-- The set of edge costs of the graph under the active parameters. -/
def costSet (P : PlannerParams) (g : Graph) : Set ℚ :=
  {q | ∃ e ∈ g.edges, q = ecost P e}

/-- The additive submonoid of `ℚ` generated by the edge costs: every
`g_score` the search ever records lies in it. -/
def gMonoid (P : PlannerParams) (g : Graph) : AddSubmonoid ℚ :=
  AddSubmonoid.closure (costSet P g)

/-- Number of universe nodes not yet recorded — first termination measure
component. -/
def unmappedCount (g : Graph) (start_id : ℤ)
    (states : ℤ → Option NodeState) : ℕ :=
  ((nodeUniverse g start_id).filter (fun v => states v = none)).card

/-- The rational value of a recorded `g_score` (`0` for `⊤`, which the
invariants rule out for recorded states). -/
def gValue (states : ℤ → Option NodeState) (v : ℤ) : ℚ :=
  match states v with
  | some st => (st.g_score.untop' 0)
  | none => 0

/-- Sum of the recorded `g_score`s over the universe — second termination
measure component. -/
def mappedSum (g : Graph) (start_id : ℤ) (states : ℤ → Option NodeState) : ℚ :=
  ((nodeUniverse g start_id).filter (fun v => (states v).isSome)).sum
    (gValue states)

/-- The termination measure of the frontier loop. -/
def measureTriple (g : Graph) (start_id : ℤ) (s : LoopState) : ℕ × ℚ × ℕ :=
  (unmappedCount g start_id s.node_states, mappedSum g start_id s.node_states,
   s.open_set.length)

/-- The well-founded order on the middle measure component: decrease inside
the cost submonoid. -/
def costRel (P : PlannerParams) (g : Graph) (a b : ℚ) : Prop :=
  a < b ∧ a ∈ gMonoid P g ∧ b ∈ gMonoid P g

/-- Lexicographic strict order on the termination measure. -/
def stepMeasureRel (P : PlannerParams) (g : Graph) (start_id : ℤ)
    (s' s : LoopState) : Prop :=
  Prod.Lex (· < ·) (Prod.Lex (costRel P g) (· < ·))
    (measureTriple g start_id s') (measureTriple g start_id s)

/-- Pointwise evolution of the state map during one expansion: each node is
untouched or strictly improved. -/
def StatesLe (s' s : ℤ → Option NodeState) : Prop :=
  ∀ n, s' n = s n ∨
    ∃ st', s' n = some st' ∧ ∀ st, s n = some st → st'.g_score < st.g_score

/-- The states-map part of the full search invariant. -/
structure StatesInv (P : PlannerParams) (g : Graph) (start_id : ℤ)
    (states : ℤ → Option NodeState) : Prop where
  start_state : states start_id = some ⟨0, -1⟩
  mapped_mem : ∀ n st, states n = some st → n ∈ nodeUniverse g start_id
  mapped_fin : ∀ n st, states n = some st →
    ∃ q : ℚ, st.g_score = (q : WithTop ℚ) ∧ q ∈ gMonoid P g
  parent_edge : ∀ n st, states n = some st → n ≠ start_id →
    ∃ e ∈ g.edges, edge_neighbor e st.parent_id = some n ∧
      ∃ stp, states st.parent_id = some stp ∧
        stp.g_score + (ecost P e : WithTop ℚ) ≤ st.g_score
  reaches : ∀ n st, states n = some st → ReachesStart states start_id n

/-- The full search invariant: frontier bookkeeping, state-map structure and
the relaxation closure needed for completeness. -/
structure SearchInv (P : PlannerParams) (g : Graph) (start_id goal_id : ℤ)
    (s : LoopState) : Prop where
  core : InvCore P g goal_id s
  states_inv : StatesInv P g start_id s.node_states
  closure : ∀ n st, s.node_states n = some st →
    (∃ q ∈ s.open_set, q.node_id = n ∧ q.g_value = st.g_score) ∨
    (∀ e ∈ g.edges, ∀ m, edge_neighbor e n = some m →
      ∃ stm, s.node_states m = some stm ∧
        stm.g_score ≤ st.g_score + (ecost P e : WithTop ℚ))

/-! ## Concrete data for witnesses and counterexamples

`sqDist` is a computable stand-in for the abstract geometry parameter: on the
axis-aligned scenarios below it induces the same nearest/heuristic ordering
as the real haversine formula. -/

/-- Squared-euclidean stand-in geometry used for the concrete scenarios. -/
def sqDist (lat1 lon1 lat2 lon2 : ℚ) : ℚ :=
  (lat1 - lat2) ^ 2 + (lon1 - lon2) ^ 2

/-- Distance-mode parameters over `sqDist`, default speed 25 mph, no config. -/
def Pw : PlannerParams := ⟨sqDist, .DISTANCE, 25, none⟩

/-- The spec §8 example graph: three collinear nodes joined by two 1000 m
bidirectional edges. -/
def Gw : Graph :=
  ⟨fun i => if i = 1 then some ⟨1, 0, 0⟩ else if i = 2 then some ⟨2, 0, 1⟩
    else if i = 3 then some ⟨3, 0, 2⟩ else none,
   [⟨1, 2, 1000, none, none, none, false⟩, ⟨2, 3, 1000, none, none, none, false⟩]⟩

/-- The spec §8 graph with speed limits and highway tags added; its edge
cores equal `Gw`'s (claim C10 witness). -/
def Gw2 : Graph :=
  ⟨Gw.nodes,
   [⟨1, 2, 1000, some 50, some "residential", none, false⟩,
    ⟨2, 3, 1000, none, some "motorway", none, false⟩]⟩

/-- The claim C1 counterexample graph: the middle node carries the reserved
id `-1`. -/
def Gce : Graph :=
  ⟨fun i => if i = 1 then some ⟨1, 0, 0⟩ else if i = -1 then some ⟨-1, 0, 1⟩
    else if i = 3 then some ⟨3, 0, 2⟩ else none,
   [⟨1, -1, 1000, none, none, none, false⟩, ⟨-1, 3, 1000, none, none, none, false⟩]⟩

/-- The claim C3 counterexample graph: one node, no edges. -/
def Gniso : Graph :=
  ⟨fun i => if i = 7 then some ⟨7, 0, 0⟩ else none, []⟩

/-- The claim C4 scenario graph: edge `1 → 2` references the missing node
`2`; node `3` provides a distinct goal. -/
def Gmiss : Graph :=
  ⟨fun i => if i = 1 then some ⟨1, 0, 0⟩ else if i = 3 then some ⟨3, 0, 5⟩ else none,
   [⟨1, 2, 500, none, none, none, false⟩, ⟨1, 3, 5000, none, none, none, false⟩]⟩

/-! ## Queue lemmas -/

theorem popMin_eq_none_iff (l : List QueueEntry) : popMin l = none ↔ l = [] := by
  constructor
  · intro h
    cases l with
    | nil => rfl
    | cons e rest =>
      simp only [popMin] at h
      rcases hr : popMin rest with - | ⟨b, rest'⟩ <;> rw [hr] at h
      · simp at h
      · by_cases hle : e.f_value ≤ b.f_value <;> simp [hle] at h
  · rintro rfl; rfl

theorem popMin_perm {l : List QueueEntry} {b : QueueEntry} {r : List QueueEntry}
    (h : popMin l = some (b, r)) : l.Perm (b :: r) := by
  induction l generalizing b r with
  | nil => simp [popMin] at h
  | cons e rest ih =>
    simp only [popMin] at h
    rcases hr : popMin rest with - | ⟨b', rest'⟩ <;> rw [hr] at h
    · rw [popMin_eq_none_iff] at hr
      subst hr
      simp only [Option.some.injEq, Prod.mk.injEq] at h
      obtain ⟨rfl, rfl⟩ := h
      exact List.Perm.refl _
    · have hperm := ih hr
      by_cases hle : e.f_value ≤ b'.f_value <;> simp only [hle, if_true, if_false,
        Option.some.injEq, Prod.mk.injEq, reduceIte] at h
      · obtain ⟨rfl, rfl⟩ := h
        exact List.Perm.refl _
      · obtain ⟨rfl, rfl⟩ := h
        exact (hperm.cons e).trans (List.Perm.swap _ _ _)

theorem popMin_min {l : List QueueEntry} {b : QueueEntry} {r : List QueueEntry}
    (h : popMin l = some (b, r)) : ∀ x ∈ l, b.f_value ≤ x.f_value := by
  induction l generalizing b r with
  | nil => simp [popMin] at h
  | cons e rest ih =>
    simp only [popMin] at h
    rcases hr : popMin rest with - | ⟨b', rest'⟩ <;> rw [hr] at h
    · rw [popMin_eq_none_iff] at hr
      subst hr
      simp only [Option.some.injEq, Prod.mk.injEq] at h
      obtain ⟨rfl, rfl⟩ := h
      intro x hx
      rcases List.mem_singleton.mp hx with rfl
      exact le_refl _
    · by_cases hle : e.f_value ≤ b'.f_value <;> simp only [hle, if_true, if_false,
        Option.some.injEq, Prod.mk.injEq, reduceIte] at h
      · obtain ⟨rfl, rfl⟩ := h
        intro x hx
        rcases List.mem_cons.mp hx with rfl | hx
        · exact le_refl _
        · exact le_trans hle (ih hr x hx)
      · obtain ⟨rfl, rfl⟩ := h
        intro x hx
        rcases List.mem_cons.mp hx with rfl | hx
        · exact le_of_lt (lt_of_not_le hle)
        · exact ih hr x hx

theorem popMin_mem {l : List QueueEntry} {b : QueueEntry} {r : List QueueEntry}
    (h : popMin l = some (b, r)) : b ∈ l :=
  (popMin_perm h).mem_iff.mpr (List.mem_cons_self _ _)

theorem mem_rest_of_node_ne {l : List QueueEntry} {b q : QueueEntry}
    {r : List QueueEntry} (h : popMin l = some (b, r)) (hq : q ∈ l)
    (hne : q.node_id ≠ b.node_id) : q ∈ r := by
  rcases List.mem_cons.mp ((popMin_perm h).mem_iff.mp hq) with rfl | hr
  · exact absurd rfl hne
  · exact hr

theorem mem_of_mem_rest {l : List QueueEntry} {b q : QueueEntry}
    {r : List QueueEntry} (h : popMin l = some (b, r)) (hq : q ∈ r) : q ∈ l :=
  (popMin_perm h).mem_iff.mpr (List.mem_cons_of_mem _ hq)

theorem popMin_length {l : List QueueEntry} {b : QueueEntry} {r : List QueueEntry}
    (h : popMin l = some (b, r)) : l.length = r.length + 1 := by
  simpa using (popMin_perm h).length_eq

/-! ## Adjacency characterization -/

theorem build_adjacency_go_apply (es : List Edge) (i : ℕ) (adj : ℤ → List ℕ)
    (x : ℤ) : build_adjacency_go es i adj x = adj x ++ localAdj es i x := by
  induction es generalizing i adj with
  | nil => simp [build_adjacency_go, localAdj]
  | cons e rest ih =>
    simp only [build_adjacency_go, localAdj]
    rw [ih]
    rcases how : e.oneway with - | -
    · by_cases hs : x = e.source <;> by_cases ht : x = e.target
      · rw [← hs, ← ht]
        simp [adjInsert, how]
      · simp [adjInsert, how, ← hs, ht]
      · simp [adjInsert, how, hs, ← ht]
      · simp [adjInsert, how, hs, ht]
    · by_cases hs : x = e.source
      · simp [adjInsert, how, ← hs]
      · simp [adjInsert, how, hs]

theorem mem_localAdj {es : List Edge} {i : ℕ} {x : ℤ} {j : ℕ} :
    j ∈ localAdj es i x ↔
      ∃ k e, es[k]? = some e ∧ j = i + k ∧
        (x = e.source ∨ (e.oneway = false ∧ x = e.target)) := by
  induction es generalizing i with
  | nil => simp [localAdj]
  | cons e rest ih =>
    simp only [localAdj, List.mem_append]
    constructor
    · rintro ((h | h) | h)
      · by_cases hs : x = e.source
        · rw [if_pos hs] at h
          rcases List.mem_singleton.mp h with rfl
          exact ⟨0, e, by simp, by omega, Or.inl hs⟩
        · rw [if_neg hs] at h
          simp at h
      · by_cases ht : e.oneway = false ∧ x = e.target
        · rw [if_pos ht] at h
          rcases List.mem_singleton.mp h with rfl
          exact ⟨0, e, by simp, by omega, Or.inr ht⟩
        · rw [if_neg ht] at h
          simp at h
      · obtain ⟨k, e', hk, hj, hcond⟩ := ih.mp h
        exact ⟨k + 1, e', by simpa using hk, by omega, hcond⟩
    · rintro ⟨k, e', hk, hj, hcond⟩
      cases k with
      | zero =>
        simp only [List.getElem?_cons_zero, Option.some.injEq] at hk
        subst hk
        rcases hcond with hs | ht
        · exact Or.inl (Or.inl (by simp [hs, hj]))
        · exact Or.inl (Or.inr (by simp [ht, hj]))
      | succ k' =>
        refine Or.inr (ih.mpr ⟨k', e', by simpa using hk, by omega, hcond⟩)

theorem mem_get_outgoing_edges {g : Graph} {x : ℤ} (hx : x ≠ -1) {e : Edge} :
    e ∈ g.get_outgoing_edges x ↔
      e ∈ g.edges ∧ (x = e.source ∨ (e.oneway = false ∧ x = e.target)) := by
  simp only [Graph.get_outgoing_edges, hx, if_false, reduceIte, List.mem_filterMap]
  constructor
  · rintro ⟨j, hj, hje⟩
    rw [Graph.adjacency_list, build_adjacency_go_apply] at hj
    simp only [List.nil_append] at hj
    obtain ⟨k, e', hk, rfl, hcond⟩ := mem_localAdj.mp hj
    simp only [Nat.zero_add] at hje
    rw [hk] at hje
    cases hje
    exact ⟨List.getElem?_mem hk, hcond⟩
  · rintro ⟨he, hcond⟩
    obtain ⟨k, hk⟩ := List.getElem?_of_mem he
    refine ⟨k, ?_, hk⟩
    rw [Graph.adjacency_list, build_adjacency_go_apply]
    simp only [List.nil_append]
    exact mem_localAdj.mpr ⟨k, e, hk, by omega, hcond⟩

/-- Every edge traversable from `x` occurs in `get_outgoing_edges x`,
including via the `-1` whole-edge-list convention. -/
theorem traversable_mem_get_outgoing {g : Graph} {x : ℤ} {e : Edge}
    (he : e ∈ g.edges)
    (hcond : x = e.source ∨ (e.oneway = false ∧ x = e.target)) :
    e ∈ g.get_outgoing_edges x := by
  by_cases hx : x = -1
  · simpa [Graph.get_outgoing_edges, hx] using he
  · exact (mem_get_outgoing_edges hx).mpr ⟨he, hcond⟩

theorem mem_edges_of_mem_get_outgoing {g : Graph} {x : ℤ} {e : Edge}
    (h : e ∈ g.get_outgoing_edges x) : e ∈ g.edges := by
  by_cases hx : x = -1
  · simpa [Graph.get_outgoing_edges, hx] using h
  · exact ((mem_get_outgoing_edges hx).mp h).1

/-! ## Claim C2: time-mode cost and effective speed resolution -/

/-- C2: in time mode, every edge's traversal cost equals its length in miles
(`distance / 1609.34`) divided by the effective speed and multiplied by 3600,
where the effective speed is resolved, first match winning, as (1) the
explicit speed limit with the `> 80 ⇒ km/h × 0.621371` sniffing, (2) the
highway-type lookup in the supplied table falling back to the default speed,
(3) the caller-supplied default speed. -/
theorem c2_time_cost_effective_speed (cfg : Option Config) (d : ℚ) (e : Edge) :
    calculate_edge_cost .TIME cfg d e =
      e.distance / 1609.34 / spec_effective_speed cfg d e * 3600 := by
  obtain ⟨src, tgt, dist, ms, hwt, nm, ow⟩ := e
  rcases ms with - | v
  · rcases cfg with - | c
    · rfl
    · rcases hwt with - | ht
      · rfl
      · rfl
  · rfl

/-! ## Claim C5: traffic overrides -/

/-- C5: an absolute-speed override replaces the edge's speed with the
override value (floored at 1 mph), so the resulting time-mode cost is
independent of the edge's original speed attributes; a multiplier override
scales the loader-resolved current speed and the floor keeps the effective
speed strictly positive. -/
theorem c5_traffic_override (c : Config) (traffic : TrafficConfig)
    (cfg' : Option Config) (d v m : ℚ) (e e1 e2 : Edge)
    (h12s : e1.source = e2.source) (h12t : e1.target = e2.target)
    (h12d : e1.distance = e2.distance)
    (hov : traffic.edge_modifications (edge_key e1) =
      some ⟨.SPEED_OVERRIDE, v⟩)
    (hm : traffic.edge_modifications (edge_key e) = some ⟨.MULTIPLIER, m⟩) :
    calculate_edge_cost .TIME cfg' d (apply_traffic_modifications (some c) traffic e1) =
      calculate_edge_cost .TIME cfg' d (apply_traffic_modifications (some c) traffic e2)
    ∧ (apply_traffic_modifications (some c) traffic e1).max_speed = some (max v 1)
    ∧ (apply_traffic_modifications (some c) traffic e).max_speed =
        some (max (loader_current_speed c e * m) 1)
    ∧ (0 : ℚ) < max (loader_current_speed c e * m) 1 := by
  have hkey : edge_key e2 = edge_key e1 := by
    simp [edge_key, h12s, h12t]
  have happ1 : apply_traffic_modifications (some c) traffic e1 =
      { e1 with max_speed := some (max v 1) } := by
    simp [apply_traffic_modifications, hov]
  have happ2 : apply_traffic_modifications (some c) traffic e2 =
      { e2 with max_speed := some (max v 1) } := by
    simp [apply_traffic_modifications, hkey, hov]
  have happm : apply_traffic_modifications (some c) traffic e =
      { e with max_speed := some (max (loader_current_speed c e * m) 1) } := by
    simp [apply_traffic_modifications, hm]
  refine ⟨?_, ?_, ?_, ?_⟩
  · rw [happ1, happ2]
    obtain ⟨s1, t1, d1, ms1, ht1, nm1, ow1⟩ := e1
    obtain ⟨s2, t2, d2, ms2, ht2, nm2, ow2⟩ := e2
    simp only at h12d
    rw [h12d]
    rfl
  · rw [happ1]
  · rw [happm]
  · exact lt_of_lt_of_le one_pos (le_max_right _ _)

/-- Witness data for C5: a table with an absolute override on edge `1-2` and
a multiplier override on edge `3-4`. -/
def trafficW : TrafficConfig :=
  ⟨fun k => if k = "1-2" then some ⟨.SPEED_OVERRIDE, 50⟩
    else if k = "3-4" then some ⟨.MULTIPLIER, 2⟩ else none⟩

/-- Witness for C5 at concrete edges: `e1` (explicit 30 mph limit) and `e2`
(residential tag, no limit) receive the same overridden cost. -/
theorem c5_witness :
    calculate_edge_cost .TIME none 25
        (apply_traffic_modifications (some ⟨fun _ => none⟩) trafficW
          ⟨1, 2, 100, some 30, none, none, false⟩) =
      calculate_edge_cost .TIME none 25
        (apply_traffic_modifications (some ⟨fun _ => none⟩) trafficW
          ⟨1, 2, 100, none, some "residential", none, false⟩)
    ∧ (apply_traffic_modifications (some ⟨fun _ => none⟩) trafficW
          ⟨1, 2, 100, some 30, none, none, false⟩).max_speed = some (max 50 1)
    ∧ (apply_traffic_modifications (some ⟨fun _ => none⟩) trafficW
          ⟨3, 4, 100, some 10, none, none, false⟩).max_speed =
        some (max (loader_current_speed ⟨fun _ => none⟩
          ⟨3, 4, 100, some 10, none, none, false⟩ * 2) 1)
    ∧ (0 : ℚ) < max (loader_current_speed ⟨fun _ => none⟩
          ⟨3, 4, 100, some 10, none, none, false⟩ * 2) 1 :=
  c5_traffic_override ⟨fun _ => none⟩ trafficW none 25 50 2
    ⟨3, 4, 100, some 10, none, none, false⟩
    ⟨1, 2, 100, some 30, none, none, false⟩
    ⟨1, 2, 100, none, some "residential", none, false⟩
    rfl rfl rfl (by decide) (by decide)

/-! ## Claim C8: the PlannerResult output contract -/

/-- C8: the `PlannerResult` struct declared in planner.hpp is missing exactly
the `total_time` and `cost_function` fields of the output contract that
astar_planner.cpp assigns (lines 256, 258) and main.cpp reads — the declared
type does not carry all the contract fields. -/
theorem c8_result_fields_missing :
    result_contract_fields.filter
        (fun f => !(planner_hpp_result_fields.contains f)) =
      ["total_time", "cost_function"] := by decide

/-! ## Claim C4: node-lookup misses during the search -/

/-- C4: on the concrete graph `Gmiss`, whose edge `1 → 2` references the
missing node `2`, the very first expansion of `plan` pushes a frontier entry
for node `2` — whose heuristic evaluation dereferences
`get_node(2) = nullptr` in the C++ (`heuristic_nodes = none` marks the null
dereference the embedding totalizes). -/
theorem c4_null_deref_scenario :
    Gmiss.get_node 2 = none ∧ heuristic_nodes Gmiss 2 3 = none ∧
      (match planStep Pw Gmiss 1 3 0 (initState Pw Gmiss 1 3) with
        | some (.next s') => s'.open_set.any (fun q => q.node_id == 2)
        | _ => false) = true := by
  refine ⟨rfl, rfl, ?_⟩
  decide

/-! ## Nearest-node scan analysis (claim C3) -/

theorem find_nearest_eq_fold (hav : ℚ → ℚ → ℚ → ℚ → ℚ) (g : Graph)
    (coord : Coordinates) :
    find_nearest_node hav g coord =
      ((endpoint_candidates g).foldl (consider_node hav g coord)
        ((-1 : ℤ), (none : Option ℚ))).1 := by
  have key : ∀ (l : List Edge) (st : ℤ × Option ℚ),
      l.foldl (fun st e =>
        consider_node hav g coord (consider_node hav g coord st e.source) e.target) st =
      (l.foldr (fun e acc => e.source :: e.target :: acc) []).foldl
        (consider_node hav g coord) st := by
    intro l
    induction l with
    | nil => intro st; rfl
    | cons e rest ih => intro st; simp only [List.foldl, List.foldr, ih]
  simp only [find_nearest_node, endpoint_candidates, key]

theorem consider_node_none {hav : ℚ → ℚ → ℚ → ℚ → ℚ} {g : Graph}
    {coord : Coordinates} {st : ℤ × Option ℚ} {c : ℤ}
    (hc : g.get_node c = none) : consider_node hav g coord st c = st := by
  unfold consider_node
  rw [hc]

theorem consider_node_fresh {hav : ℚ → ℚ → ℚ → ℚ → ℚ} {g : Graph}
    {coord : Coordinates} {st : ℤ × Option ℚ} {c : ℤ} {node : Node}
    (hc : g.get_node c = some node) (hst : st.2 = none) :
    consider_node hav g coord st c = (c, some (cdist hav coord node)) := by
  unfold consider_node
  rw [hc, hst]
  rfl

theorem consider_node_seen {hav : ℚ → ℚ → ℚ → ℚ → ℚ} {g : Graph}
    {coord : Coordinates} {st : ℤ × Option ℚ} {c : ℤ} {node : Node} {m : ℚ}
    (hc : g.get_node c = some node) (hst : st.2 = some m) :
    consider_node hav g coord st c =
      if cdist hav coord node < m then (c, some (cdist hav coord node)) else st := by
  unfold consider_node
  rw [hc, hst]
  rfl

theorem consider_keeps_some {hav : ℚ → ℚ → ℚ → ℚ → ℚ} {g : Graph}
    {coord : Coordinates} {st : ℤ × Option ℚ} (c : ℤ) {m : ℚ}
    (h : st.2 = some m) :
    ∃ m', (consider_node hav g coord st c).2 = some m' ∧ m' ≤ m := by
  rcases hc : g.get_node c with - | node
  · rw [consider_node_none hc]
    exact ⟨m, h, le_refl m⟩
  · rw [consider_node_seen hc h]
    by_cases hlt : cdist hav coord node < m
    · rw [if_pos hlt]
      exact ⟨_, rfl, le_of_lt hlt⟩
    · rw [if_neg hlt]
      exact ⟨m, h, le_refl m⟩

theorem fold_keeps_some {hav : ℚ → ℚ → ℚ → ℚ → ℚ} {g : Graph}
    {coord : Coordinates} (l : List ℤ) (st : ℤ × Option ℚ) {m : ℚ}
    (h : st.2 = some m) :
    ∃ m', (l.foldl (consider_node hav g coord) st).2 = some m' ∧ m' ≤ m := by
  induction l generalizing st m with
  | nil => exact ⟨m, h, le_refl m⟩
  | cons c rest ih =>
    obtain ⟨m1, h1, hle1⟩ := consider_keeps_some c h
    obtain ⟨m2, h2, hle2⟩ := ih _ h1
    exact ⟨m2, h2, le_trans hle2 hle1⟩

theorem fold_none_iff {hav : ℚ → ℚ → ℚ → ℚ → ℚ} {g : Graph}
    {coord : Coordinates} (l : List ℤ) (st : ℤ × Option ℚ) :
    (l.foldl (consider_node hav g coord) st).2 = none ↔
      st.2 = none ∧ ∀ c ∈ l, g.get_node c = none := by
  induction l generalizing st with
  | nil => simp
  | cons c rest ih =>
    simp only [List.foldl, ih, List.mem_cons]
    constructor
    · rintro ⟨h1, h2⟩
      rcases hc : g.get_node c with - | node
      · rw [consider_node_none hc] at h1
        exact ⟨h1, fun x hx => hx.elim (fun hxc => hxc ▸ hc) (h2 x)⟩
      · exfalso
        rcases hst : st.2 with - | m
        · rw [consider_node_fresh hc hst] at h1
          simp at h1
        · rw [consider_node_seen hc hst] at h1
          by_cases hlt : cdist hav coord node < m
          · rw [if_pos hlt] at h1; simp at h1
          · rw [if_neg hlt] at h1; rw [hst] at h1; simp at h1
    · rintro ⟨h1, h2⟩
      refine ⟨?_, fun x hx => h2 x (Or.inr hx)⟩
      rw [consider_node_none (h2 c (Or.inl rfl))]
      exact h1

theorem fold_unchanged_of_none {hav : ℚ → ℚ → ℚ → ℚ → ℚ} {g : Graph}
    {coord : Coordinates} (l : List ℤ) (st : ℤ × Option ℚ)
    (h : (l.foldl (consider_node hav g coord) st).2 = none) :
    l.foldl (consider_node hav g coord) st = st := by
  induction l generalizing st with
  | nil => rfl
  | cons c rest ih =>
    have h0 := (fold_none_iff (c :: rest) st).mp h
    have hc := h0.2 c (List.mem_cons_self _ _)
    rw [List.foldl, consider_node_none hc] at h ⊢
    exact ih st h

theorem fold_main (hav : ℚ → ℚ → ℚ → ℚ → ℚ) (g : Graph) (coord : Coordinates)
    (l : List ℤ) (st : ℤ × Option ℚ) (hok : NearestStateOk hav g coord st) :
    NearestStateOk hav g coord (l.foldl (consider_node hav g coord) st) ∧
    (l.foldl (consider_node hav g coord) st = st ∨
      (l.foldl (consider_node hav g coord) st).1 ∈ l) ∧
    (∀ m, (l.foldl (consider_node hav g coord) st).2 = some m →
      (∀ m0, st.2 = some m0 → m ≤ m0) ∧
      (∀ c ∈ l, ∀ nc, g.get_node c = some nc → m ≤ cdist hav coord nc)) := by
  induction l generalizing st with
  | nil =>
    refine ⟨hok, Or.inl rfl, fun m hm =>
      ⟨fun m0 h0 => ?_, fun c hc => absurd hc (List.not_mem_nil c)⟩⟩
    simp only [List.foldl] at hm
    rw [hm] at h0
    cases h0
    rfl
  | cons c rest ih =>
    have step : NearestStateOk hav g coord (consider_node hav g coord st c) ∧
        (consider_node hav g coord st c = st ∨
          (consider_node hav g coord st c).1 = c) ∧
        (∀ m1, (consider_node hav g coord st c).2 = some m1 →
          (∀ m0, st.2 = some m0 → m1 ≤ m0) ∧
          (∀ nc, g.get_node c = some nc → m1 ≤ cdist hav coord nc)) := by
      rcases hc : g.get_node c with - | node
      · rw [consider_node_none hc]
        refine ⟨hok, Or.inl rfl, fun m1 hm1 => ⟨fun m0 h0 => ?_, fun nc hnc => ?_⟩⟩
        · rw [hm1] at h0; cases h0; rfl
        · exact Option.noConfusion hnc
      · rcases hst : st.2 with - | m0
        · rw [consider_node_fresh hc hst]
          refine ⟨Or.inr ⟨node, hc, rfl⟩, Or.inr rfl, fun m1 hm1 => ?_⟩
          simp only [Option.some.injEq] at hm1
          refine ⟨fun m0 h0 => Option.noConfusion h0, fun nc hnc => ?_⟩
          cases Option.some.inj hnc
          exact le_of_eq hm1.symm
        · rw [consider_node_seen hc hst]
          by_cases hlt : cdist hav coord node < m0
          · rw [if_pos hlt]
            refine ⟨Or.inr ⟨node, hc, rfl⟩, Or.inr rfl, fun m1 hm1 => ?_⟩
            simp only [Option.some.injEq] at hm1
            subst hm1
            refine ⟨fun m0p h0 => ?_, fun nc hnc => ?_⟩
            · cases Option.some.inj h0
              exact le_of_lt hlt
            · cases Option.some.inj hnc
              rfl
          · rw [if_neg hlt]
            refine ⟨hok, Or.inl rfl, fun m1 hm1 => ?_⟩
            have hm10 : m1 = m0 := Option.some.inj (hm1.symm.trans hst)
            refine ⟨fun m0p h0 => ?_, fun nc hnc => ?_⟩
            · have h0m : m0 = m0p := Option.some.inj h0
              exact le_of_eq (hm10.trans h0m)
            · cases Option.some.inj hnc
              rw [hm10]
              exact le_of_not_lt hlt
    obtain ⟨sok, schange, smin⟩ := step
    obtain ⟨fok, fchange, fmin⟩ := ih _ sok
    refine ⟨fok, ?_, ?_⟩
    · rcases fchange with heq | hmem
      · rcases schange with h1 | h1
        · exact Or.inl (by rw [List.foldl, heq, h1])
        · exact Or.inr (by rw [List.foldl, heq, h1]; exact List.mem_cons_self _ _)
      · exact Or.inr (List.mem_cons_of_mem _ hmem)
    · intro m hm
      obtain ⟨hm0, hmrest⟩ := fmin m hm
      constructor
      · intro m0 h0
        rcases hst2 : (consider_node hav g coord st c).2 with - | m1
        · rcases consider_keeps_some c h0 with ⟨mp, hmp, -⟩
          rw [hst2] at hmp; cases hmp
        · obtain ⟨hle0, -⟩ := smin m1 hst2
          exact le_trans (hm0 m1 hst2) (hle0 m0 h0)
      · intro x hx nc hnc
        rcases List.mem_cons.mp hx with rfl | hx
        · rcases hst2 : (consider_node hav g coord st x).2 with - | m1
          · exfalso
            rcases hst : st.2 with - | mm
            · rw [consider_node_fresh hnc hst] at hst2
              simp at hst2
            · rw [consider_node_seen hnc hst] at hst2
              by_cases hlt : cdist hav coord nc < mm
              · rw [if_pos hlt] at hst2; simp at hst2
              · rw [if_neg hlt] at hst2; rw [hst] at hst2; simp at hst2
          · obtain ⟨-, hcle⟩ := smin m1 hst2
            exact le_trans (hm0 m1 hst2) (hcle nc hnc)
        · exact hmrest x hx nc hnc

theorem mem_endpoint_candidates {g : Graph} {c : ℤ} :
    c ∈ endpoint_candidates g ↔ ∃ e ∈ g.edges, c = e.source ∨ c = e.target := by
  have : endpoint_candidates g =
      (g.edges).foldr (fun e acc => e.source :: e.target :: acc) [] := rfl
  rw [this]
  clear this
  induction g.edges with
  | nil => simp
  | cons e rest ih =>
    simp only [List.foldr, List.mem_cons, ih, List.mem_cons]
    constructor
    · rintro (rfl | rfl | ⟨e', he', hc⟩)
      · exact ⟨e, Or.inl rfl, Or.inl rfl⟩
      · exact ⟨e, Or.inl rfl, Or.inr rfl⟩
      · exact ⟨e', Or.inr he', hc⟩
    · rintro ⟨e', (rfl | he'), hc⟩
      · rcases hc with rfl | rfl
        · exact Or.inl rfl
        · exact Or.inr (Or.inl rfl)
      · exact Or.inr (Or.inr ⟨e', he', hc⟩)

/-! ## Claim C3: nearest-node locator (amended) -/

/-- C3 (amended): provided no edge endpoint carries the reserved id `-1`, the
locator returns `-1` exactly when no edge endpoint resolves to a known node
(in particular whenever the edge list is empty, even if the node map is not),
and otherwise returns an edge-endpoint node whose great-circle distance to
the query is minimal among all resolvable edge endpoints. -/
theorem c3_nearest_amended (hav : ℚ → ℚ → ℚ → ℚ → ℚ) (g : Graph)
    (coord : Coordinates)
    (hno : ∀ e ∈ g.edges, e.source ≠ -1 ∧ e.target ≠ -1) :
    (find_nearest_node hav g coord = -1 ↔
      ∀ c ∈ endpoint_candidates g, g.get_node c = none) ∧
    (find_nearest_node hav g coord ≠ -1 →
      ∃ node, g.get_node (find_nearest_node hav g coord) = some node ∧
        find_nearest_node hav g coord ∈ endpoint_candidates g ∧
        ∀ c ∈ endpoint_candidates g, ∀ nc, g.get_node c = some nc →
          cdist hav coord node ≤ cdist hav coord nc) := by
  have hcand : ∀ c ∈ endpoint_candidates g, c ≠ -1 := by
    intro c hc
    obtain ⟨e, he, hce⟩ := mem_endpoint_candidates.mp hc
    rcases hce with rfl | rfl
    · exact (hno e he).1
    · exact (hno e he).2
  rw [find_nearest_eq_fold]
  obtain ⟨rok, rchange, rmin⟩ :=
    fold_main hav g coord (endpoint_candidates g) ((-1 : ℤ), (none : Option ℚ))
      (Or.inl rfl)
  generalize hres : (endpoint_candidates g).foldl (consider_node hav g coord)
      ((-1 : ℤ), (none : Option ℚ)) = res at rok rchange rmin ⊢
  constructor
  · constructor
    · intro h1
      rcases rchange with heq | hmem
      · have h2 : res.2 = none := by rw [heq]
        rw [← hres] at h2
        exact ((fold_none_iff _ _).mp h2).2
      · exact absurd h1 (fun hh => hcand _ (hh ▸ hmem) rfl)
    · intro hall
      have h2 : ((endpoint_candidates g).foldl (consider_node hav g coord)
          ((-1 : ℤ), (none : Option ℚ))).2 = none :=
        (fold_none_iff _ _).mpr ⟨rfl, hall⟩
      have := fold_unchanged_of_none _ _ h2
      rw [hres] at this
      rw [this]
  · intro hne
    have hchange : res.1 ∈ endpoint_candidates g := by
      rcases rchange with heq | hmem
      · exact absurd (by rw [heq]) hne
      · exact hmem
    rcases hr2 : res.2 with - | m
    · exfalso
      rw [← hres] at hr2
      have := fold_unchanged_of_none _ _ hr2
      rw [hres] at this
      exact hne (by rw [this])
    · rcases rok with h | ⟨node, hnode, hdist⟩
      · rw [h] at hr2; cases hr2
      · refine ⟨node, hnode, hchange, fun c hc nc hnc => ?_⟩
        have hmle := (rmin m hr2).2 c hc nc hnc
        have hmn : m = cdist hav coord node := Option.some.inj (hr2.symm.trans hdist)
        rw [← hmn]
        exact hmle

/-- C3 counterexample: `Gniso` has a node (id 7) but no edges, so the graph
is non-empty and yet the locator reports "not found". -/
theorem c3_isolated_counterexample :
    find_nearest_node sqDist Gniso ⟨0, 0⟩ = -1 ∧
      Gniso.get_node 7 = some ⟨7, 0, 0⟩ := by
  exact ⟨rfl, rfl⟩

/-- Witness for the amended C3 on the spec §8 graph: the locator picks node 1
for the query `(0,0)`, and its distance is minimal among all candidates. -/
theorem c3_witness :
    cdist sqDist ⟨0, 0⟩ ⟨1, 0, 0⟩ ≤ cdist sqDist ⟨0, 0⟩ ⟨2, 0, 1⟩ := by
  have h := (c3_nearest_amended sqDist Gw ⟨0, 0⟩ (by decide)).2 (by decide)
  obtain ⟨node, hnode, -, hmin⟩ := h
  have hres : find_nearest_node sqDist Gw ⟨0, 0⟩ = 1 := by decide
  rw [hres] at hnode
  have hnode1 : node = ⟨1, 0, 0⟩ := by
    have : Gw.get_node 1 = some ⟨1, 0, 0⟩ := rfl
    rw [this] at hnode
    cases hnode
    rfl
  subst hnode1
  exact hmin 2 (by decide) ⟨2, 0, 1⟩ rfl

/-! ## Reconstruction analysis (claims C6, C7) -/

theorem edge_match_iff {from_id to_id : ℤ} {e : Edge} :
    edge_match from_id to_id e = true ↔
      (e.source = from_id ∧ e.target = to_id) ∨
      (e.oneway = false ∧ e.target = from_id ∧ e.source = to_id) := by
  simp [edge_match, Bool.or_eq_true, Bool.and_eq_true, decide_eq_true_iff,
    Bool.not_eq_true', and_assoc]

theorem find_connecting_edge_spec {g : Graph} {a b : ℤ} {e : Edge}
    (h : find_connecting_edge g a b = some e) :
    e ∈ g.edges ∧
      ((e.source = a ∧ e.target = b) ∨
        (e.oneway = false ∧ e.target = a ∧ e.source = b)) := by
  have hmem := List.mem_of_find?_eq_some h
  have hp := List.find?_some h
  exact ⟨mem_edges_of_mem_get_outgoing hmem, edge_match_iff.mp hp⟩

theorem find_connecting_edge_isSome {g : Graph} {a b : ℤ} {e : Edge}
    (he : e ∈ g.edges)
    (hcond : (e.source = a ∧ e.target = b) ∨
      (e.oneway = false ∧ e.target = a ∧ e.source = b)) :
    (find_connecting_edge g a b).isSome := by
  rw [find_connecting_edge, List.find?_isSome]
  refine ⟨e, ?_, edge_match_iff.mpr hcond⟩
  apply traversable_mem_get_outgoing he
  rcases hcond with ⟨h1, -⟩ | ⟨h1, h2, -⟩
  · exact Or.inl h1.symm
  · exact Or.inr ⟨h1, h2.symm⟩

theorem accumulate_metrics_chain {P : PlannerParams} {g : Graph} :
    ∀ {l : List ℤ} {dt : ℚ × ℚ}, accumulate_metrics P g l = some dt →
      List.Chain' (fun a b => ∃ e, find_connecting_edge g a b = some e) l := by
  intro l
  induction l with
  | nil => intro dt h; exact List.chain'_nil
  | cons a rest ih =>
    intro dt h
    cases rest with
    | nil => exact List.chain'_singleton a
    | cons b rest2 =>
      rw [accumulate_metrics] at h
      rcases hfe : find_connecting_edge g a b with - | e <;> rw [hfe] at h
      · cases h
      · rcases hacc : accumulate_metrics P g (b :: rest2) with - | dt2 <;>
          rw [hacc] at h
        · cases h
        · exact List.chain'_cons.mpr ⟨⟨e, hfe⟩, ih hacc⟩

theorem accumulate_metrics_spec_distance {P : PlannerParams} {g : Graph} :
    ∀ {l : List ℤ} {dt : ℚ × ℚ}, accumulate_metrics P g l = some dt →
      spec_path_distance g l = some dt.1 := by
  intro l
  induction l with
  | nil =>
    intro dt h
    rw [accumulate_metrics] at h
    cases h
    rfl
  | cons a rest ih =>
    intro dt h
    cases rest with
    | nil =>
      rw [accumulate_metrics] at h
      cases h
      rfl
    | cons b rest2 =>
      rw [accumulate_metrics] at h
      rcases hfe : find_connecting_edge g a b with - | e <;> rw [hfe] at h
      · cases h
      · rcases hacc : accumulate_metrics P g (b :: rest2) with - | dt2 <;>
          rw [hacc] at h
        · cases h
        · cases h
          rw [spec_path_distance, hfe, ih hacc]

theorem walkParents_result_head {states : ℤ → Option NodeState} :
    ∀ {k : ℕ} {cur : ℤ} {l : List ℤ},
      walkParents states k cur = some (some l) →
      (cur = -1 ∧ l = []) ∨ l.head? = some cur := by
  intro k
  induction k with
  | zero => intro cur l h; cases h
  | succ k ih =>
    intro cur l h
    rw [walkParents] at h
    by_cases hcur : cur = -1
    · rw [if_pos hcur] at h
      cases h
      exact Or.inl ⟨hcur, rfl⟩
    · rw [if_neg hcur] at h
      rcases hst : states cur with - | st <;> rw [hst] at h <;> dsimp only at h
      · exact absurd h (by simp)
      · rcases hw : walkParents states k st.parent_id with - | w <;> rw [hw] at h
        · exact Option.noConfusion h
        · rcases w with - | rest
          · exact absurd h (by simp)
          · simp only [Option.some.injEq] at h
            rw [← h]
            exact Or.inr rfl

theorem reconstruct_success_shape {P : PlannerParams} {g : Graph}
    {states : ℤ → Option NodeState} {a b : ℤ} {wf : ℕ} {r : PlannerResult}
    (h : reconstruct_path P g states a b wf = some r) (hs : r.success = true) :
    r.path.head? = some a ∧ r.path.getLast? = some b ∧
      accumulate_metrics P g r.path = some (r.total_distance, r.total_time) ∧
      r.cost_function = cost_function_label P.cost_function ∧
      r.num_nodes_explored = 0 := by
  rw [reconstruct_path] at h
  rcases hw : walkParents states wf b with - | w <;> rw [hw] at h
  · cases h
  · rcases w with - | path0 <;> dsimp only at h
    · cases h; cases hs
    · rcases hlast : path0.getLast? with - | last <;> rw [hlast] at h <;>
        dsimp only at h
      · cases h; cases hs
      · by_cases hstart : last = a
        · rw [if_pos hstart] at h
          rcases hacc : accumulate_metrics P g path0.reverse with - | dt <;>
            rw [hacc] at h <;> dsimp only at h
          · cases h; cases hs
          · cases h
            have hne : path0 ≠ [] := by
              intro hnil
              rw [hnil] at hlast
              cases hlast
            have hhead : path0.head? = some b := by
              rcases walkParents_result_head hw with ⟨-, hnil⟩ | hh
              · exact absurd hnil hne
              · exact hh
            subst hstart
            refine ⟨?_, ?_, ?_, rfl, rfl⟩
            · rw [List.head?_reverse]
              exact hlast
            · rw [List.getLast?_reverse]
              exact hhead
            · exact hacc
        · rw [if_neg hstart] at h
          cases h; cases hs

theorem reconstruct_failure_default {P : PlannerParams} {g : Graph}
    {states : ℤ → Option NodeState} {a b : ℤ} {wf : ℕ} {r : PlannerResult}
    (h : reconstruct_path P g states a b wf = some r) (hs : r.success = false) :
    r = {} := by
  rw [reconstruct_path] at h
  rcases hw : walkParents states wf b with - | w <;> rw [hw] at h
  · cases h
  · rcases w with - | path0 <;> dsimp only at h
    · cases h; rfl
    · rcases hlast : path0.getLast? with - | last <;> rw [hlast] at h <;>
        dsimp only at h
      · cases h; rfl
      · by_cases hstart : last = a
        · rw [if_pos hstart] at h
          rcases hacc : accumulate_metrics P g path0.reverse with - | dt <;>
            rw [hacc] at h <;> dsimp only at h
          · cases h; rfl
          · cases h; cases hs
        · rw [if_neg hstart] at h
          cases h; rfl

theorem planStep_done_inv {P : PlannerParams} {g : Graph} {a b : ℤ} {wf : ℕ}
    {s : LoopState} {r : PlannerResult}
    (h : planStep P g a b wf s = some (.done r)) :
    r = {} ∨ ∃ r0, reconstruct_path P g s.node_states a b wf = some r0 ∧
      r = { r0 with num_nodes_explored := s.nodes_explored + 1 } := by
  rw [planStep] at h
  rcases hpop : popMin s.open_set with - | cr <;> rw [hpop] at h
  · cases h
    exact Or.inl rfl
  · obtain ⟨cur, rest⟩ := cr
    dsimp only at h
    by_cases hgoal : cur.node_id = b
    · rw [if_pos hgoal] at h
      rcases hrec : reconstruct_path P g s.node_states a b wf with - | r0 <;>
        rw [hrec] at h
      · cases h
      · cases h
        exact Or.inr ⟨r0, rfl, rfl⟩
    · rw [if_neg hgoal] at h
      by_cases hstale : (getState s.node_states cur.node_id).g_score < cur.g_value
      · rw [if_pos hstale] at h
        cases h
      · rw [if_neg hstale] at h
        cases h

theorem planStep_next_inv {P : PlannerParams} {g : Graph} {a b : ℤ} {wf : ℕ}
    {s s' : LoopState} (h : planStep P g a b wf s = some (.next s')) :
    ∃ cur rest, popMin s.open_set = some (cur, rest) ∧ cur.node_id ≠ b ∧
      ((getState s.node_states cur.node_id).g_score < cur.g_value ∧
        s' = ⟨rest, s.node_states, s.nodes_explored + 1⟩ ∨
       ¬ (getState s.node_states cur.node_id).g_score < cur.g_value ∧
        s' = expand P g b cur.node_id rest s.node_states (s.nodes_explored + 1)) := by
  rw [planStep] at h
  rcases hpop : popMin s.open_set with - | cr <;> rw [hpop] at h
  · cases h
  · obtain ⟨cur, rest⟩ := cr
    dsimp only at h
    by_cases hgoal : cur.node_id = b
    · rw [if_pos hgoal] at h
      rcases hrec : reconstruct_path P g s.node_states a b wf with - | r0 <;>
        rw [hrec] at h <;> cases h
    · rw [if_neg hgoal] at h
      by_cases hstale : (getState s.node_states cur.node_id).g_score < cur.g_value
      · rw [if_pos hstale] at h
        cases h
        exact ⟨cur, rest, rfl, hgoal, Or.inl ⟨hstale, rfl⟩⟩
      · rw [if_neg hstale] at h
        cases h
        exact ⟨cur, rest, rfl, hgoal, Or.inr ⟨hstale, rfl⟩⟩

theorem runLoop_success_source {P : PlannerParams} {g : Graph} {a b : ℤ}
    {wf : ℕ} : ∀ {fuel : ℕ} {s : LoopState} {r : PlannerResult},
    runLoop P g a b wf fuel s = some r → r.success = true →
    ∃ states explored r0, reconstruct_path P g states a b wf = some r0 ∧
      r0.success = true ∧ r = { r0 with num_nodes_explored := explored } := by
  intro fuel
  induction fuel with
  | zero => intro s r h; cases h
  | succ n ih =>
    intro s r h hs
    rw [runLoop] at h
    rcases hstep : planStep P g a b wf s with - | out <;> rw [hstep] at h
    · cases h
    · rcases out with r' | s'
      · cases h
        rcases planStep_done_inv hstep with rfl | ⟨r0, hrec, rfl⟩
        · cases hs
        · have hr0 : r0.success = true := hs
          exact ⟨s.node_states, s.nodes_explored + 1, r0, hrec, hr0, rfl⟩
      · exact ih h hs

theorem runLoop_failure_empty {P : PlannerParams} {g : Graph} {a b : ℤ}
    {wf : ℕ} : ∀ {fuel : ℕ} {s : LoopState} {r : PlannerResult},
    runLoop P g a b wf fuel s = some r → r.success = false → r.path = [] := by
  intro fuel
  induction fuel with
  | zero => intro s r h; cases h
  | succ n ih =>
    intro s r h hs
    rw [runLoop] at h
    rcases hstep : planStep P g a b wf s with - | out <;> rw [hstep] at h
    · cases h
    · rcases out with r' | s'
      · cases h
        rcases planStep_done_inv hstep with rfl | ⟨r0, hrec, rfl⟩
        · rfl
        · have hr0 : r0.success = false := hs
          have := reconstruct_failure_default hrec hr0
          rw [this]
      · exact ih h hs

theorem plan_success_source {P : PlannerParams} {g : Graph} {fuel : ℕ}
    {sc gc : Coordinates} {r : PlannerResult}
    (h : plan P g fuel sc gc = some r) (hs : r.success = true) :
    ∃ states explored r0,
      reconstruct_path P g states (find_nearest_node P.hav g sc)
        (find_nearest_node P.hav g gc) fuel = some r0 ∧
      r0.success = true ∧ r = { r0 with num_nodes_explored := explored } := by
  rw [plan] at h
  by_cases hguard : find_nearest_node P.hav g sc = -1 ∨
      find_nearest_node P.hav g gc = -1
  · rw [if_pos hguard] at h
    cases h
    cases hs
  · rw [if_neg hguard] at h
    exact runLoop_success_source h hs

theorem plan_failure_empty {P : PlannerParams} {g : Graph} {fuel : ℕ}
    {sc gc : Coordinates} {r : PlannerResult}
    (h : plan P g fuel sc gc = some r) (hs : r.success = false) :
    r.path = [] := by
  rw [plan] at h
  by_cases hguard : find_nearest_node P.hav g sc = -1 ∨
      find_nearest_node P.hav g gc = -1
  · rw [if_pos hguard] at h
    cases h
    rfl
  · rw [if_neg hguard] at h
    exact runLoop_failure_empty h hs

/-! ## Claim C7: reported distance is the sum of re-resolved edge lengths -/

/-- C7: for every successful plan result, the reported total distance equals
the sum, over consecutive path pairs, of the stored length of the actual
connecting edge re-resolved from the graph (forward, or reverse for
non-one-way edges), as captured by `spec_path_distance`. -/
theorem c7_distance_roundtrip (P : PlannerParams) (g : Graph) (fuel : ℕ)
    (sc gc : Coordinates) (r : PlannerResult)
    (h : plan P g fuel sc gc = some r) (hs : r.success = true) :
    spec_path_distance g r.path = some r.total_distance := by
  obtain ⟨states, explored, r0, hrec, hr0, rfl⟩ := plan_success_source h hs
  obtain ⟨-, -, hacc, -, -⟩ := reconstruct_success_shape hrec hr0
  have := accumulate_metrics_spec_distance hacc
  exact this

/-- Witness for C7: on the spec §8 example graph the successful plan reports
2000 m, which equals the re-resolved per-edge sum. -/
theorem c7_witness : spec_path_distance Gw [1, 2, 3] = some 2000 :=
  c7_distance_roundtrip Pw Gw 10 ⟨0, 0⟩ ⟨0, 2⟩
    ⟨true, [1, 2, 3], 2000, 14400000 / 80467, 3, "distance"⟩
    (by decide) rfl

/-! ## Claim C6: one-way enforcement -/

/-- C6: (i) a one-way edge occurs only in its source's adjacency bucket;
(ii) the expansion rule follows a one-way edge only from its source to its
target; (iii) a bidirectional edge is in both endpoints' buckets and is
traversable in both directions; (iv) whichever direction an edge is
traversed, the cost added to `g` is `calculate_edge_cost` of that edge (the
cost does not depend on the direction); (v) consecutive pairs of every
successful path are joined by an edge taken forward, or backward only if not
one-way. -/
theorem c6_oneway_enforcement :
    (∀ (g : Graph) (x : ℤ) (e : Edge), e.oneway = true → x ≠ -1 →
      e ∈ g.get_outgoing_edges x → x = e.source) ∧
    (∀ (e : Edge) (x y : ℤ), e.oneway = true → edge_neighbor e x = some y →
      e.source = x ∧ y = e.target) ∧
    (∀ (g : Graph) (e : Edge), e ∈ g.edges → e.oneway = false →
      e ∈ g.get_outgoing_edges e.source ∧ e ∈ g.get_outgoing_edges e.target ∧
      edge_neighbor e e.source = some e.target ∧
      edge_neighbor e e.target = some e.source) ∧
    (∀ (P : PlannerParams) (gg : Graph) (goal_id a b : ℤ)
      (states : ℤ → Option NodeState) (pushed : List QueueEntry) (e : Edge),
      edge_neighbor e a = some b →
      relax P gg goal_id a (states, pushed) e = (states, pushed) ∨
      (relax P gg goal_id a (states, pushed) e).1 b =
        some ⟨(getState states a).g_score +
          (calculate_edge_cost P.cost_function P.config P.default_speed_mph e :
            WithTop ℚ), a⟩) ∧
    (∀ (P : PlannerParams) (gg : Graph) (fuel : ℕ) (sc gc : Coordinates)
      (r : PlannerResult), plan P gg fuel sc gc = some r → r.success = true →
      List.Chain' (fun a b => ∃ e ∈ gg.edges,
        (e.source = a ∧ e.target = b) ∨
        (e.oneway = false ∧ e.source = b ∧ e.target = a)) r.path) := by
  refine ⟨?_, ?_, ?_, ?_, ?_⟩
  · intro g x e how hx hmem
    rcases ((mem_get_outgoing_edges hx).mp hmem).2 with h | ⟨h1, -⟩
    · exact h
    · rw [how] at h1
      cases h1
  · intro e x y how hn
    rw [edge_neighbor] at hn
    by_cases hs : e.source = x
    · rw [if_pos hs] at hn
      cases hn
      exact ⟨hs, rfl⟩
    · rw [if_neg hs] at hn
      by_cases ht : e.oneway = false ∧ e.target = x
      · rw [how] at ht
        exact absurd ht.1 (by simp)
      · rw [if_neg ht] at hn
        cases hn
  · intro g e he how
    refine ⟨traversable_mem_get_outgoing he (Or.inl rfl),
      traversable_mem_get_outgoing he (Or.inr ⟨how, rfl⟩), ?_, ?_⟩
    · rw [edge_neighbor, if_pos rfl]
    · rw [edge_neighbor]
      by_cases hs : e.source = e.target
      · rw [if_pos hs, hs]
      · rw [if_neg hs, if_pos ⟨how, rfl⟩]
  · intro P gg goal_id a b states pushed e hn
    rw [relax, hn]
    dsimp only
    rcases hb : states b with - | stb <;> dsimp only
    · rw [if_pos rfl]
      refine Or.inr ?_
      simp [updState]
    · by_cases hlt : (getState states a).g_score +
          (calculate_edge_cost P.cost_function P.config P.default_speed_mph e :
            WithTop ℚ) < stb.g_score
      · rw [if_pos (by simpa using hlt)]
        refine Or.inr ?_
        simp [updState]
      · rw [if_neg (by simpa using hlt)]
        exact Or.inl rfl
  · intro P gg fuel sc gc r h hs
    obtain ⟨states, explored, r0, hrec, hr0, rfl⟩ := plan_success_source h hs
    obtain ⟨-, -, hacc, -, -⟩ := reconstruct_success_shape hrec hr0
    refine (accumulate_metrics_chain hacc).imp ?_
    rintro a b ⟨e, hfe⟩
    obtain ⟨he, hcond⟩ := find_connecting_edge_spec hfe
    refine ⟨e, he, ?_⟩
    rcases hcond with ⟨h1, h2⟩ | ⟨h1, h2, h3⟩
    · exact Or.inl ⟨h1, h2⟩
    · exact Or.inr ⟨h1, h3, h2⟩

/-- Witness for C6 at a concrete one-way edge: expansion from the target is
refused, while the forward direction yields the target. -/
theorem c6_witness :
    ((⟨3, 4, 100, none, none, none, true⟩ : Edge).source = 3 ∧
      (4 : ℤ) = (⟨3, 4, 100, none, none, none, true⟩ : Edge).target) :=
  c6_oneway_enforcement.2.1 ⟨3, 4, 100, none, none, none, true⟩ 3 4 rfl (by decide)

/-! ## Expansion-fold analysis (claims C9, C1) -/

theorem updState_self (s : ℤ → Option NodeState) (n : ℤ) (v : NodeState) :
    updState s n v n = some v := by
  simp [updState]

theorem updState_ne (s : ℤ → Option NodeState) (m n : ℤ) (v : NodeState)
    (h : n ≠ m) : updState s m v n = s n := by
  simp [updState, h]

theorem relax_cases (P : PlannerParams) (g : Graph) (goal_id cur : ℤ)
    (acc : (ℤ → Option NodeState) × List QueueEntry) (e : Edge) :
    relax P g goal_id cur acc e = acc ∨
    ∃ n, edge_neighbor e cur = some n ∧
      (∀ st0, acc.1 n = some st0 →
        (getState acc.1 cur).g_score + (ecost P e : WithTop ℚ) < st0.g_score) ∧
      relax P g goal_id cur acc e =
        (updState acc.1 n
            ⟨(getState acc.1 cur).g_score + (ecost P e : WithTop ℚ), cur⟩,
         acc.2 ++ [QueueEntry.make n
            ((getState acc.1 cur).g_score + (ecost P e : WithTop ℚ))
            (hval P g goal_id n)]) := by
  rw [relax]
  rcases hn : edge_neighbor e cur with - | n
  · exact Or.inl rfl
  · dsimp only
    rcases hb : acc.1 n with - | stb <;> dsimp only
    · rw [if_pos rfl]
      refine Or.inr ⟨n, rfl, fun st0 h0 => Option.noConfusion (hb.symm.trans h0), ?_⟩
      rfl
    · by_cases hlt : (getState acc.1 cur).g_score + (ecost P e : WithTop ℚ) <
          stb.g_score
      · rw [if_pos (by simpa [ecost] using hlt)]
        refine Or.inr ⟨n, rfl, fun st0 h0 => ?_, ?_⟩
        · cases Option.some.inj (hb.symm.trans h0)
          exact hlt
        · simp [ecost, hval]
      · rw [if_neg (by simpa [ecost] using hlt)]
        exact Or.inl rfl

theorem fold_states_mono (P : PlannerParams) (g : Graph) (goal_id cur : ℤ) :
    ∀ (l : List Edge) (acc : (ℤ → Option NodeState) × List QueueEntry)
      (n : ℤ) (st0 : NodeState), acc.1 n = some st0 →
      ∃ st', (l.foldl (relax P g goal_id cur) acc).1 n = some st' ∧
        st'.g_score ≤ st0.g_score := by
  intro l
  induction l with
  | nil => exact fun acc n st0 h => ⟨st0, h, le_refl _⟩
  | cons e rest ih =>
    intro acc n st0 h
    rw [List.foldl]
    rcases relax_cases P g goal_id cur acc e with heq | ⟨m, -, hstrict, heq⟩
    · rw [heq]
      exact ih acc n st0 h
    · rw [heq]
      by_cases hmn : n = m
      · subst hmn
        have hlt := hstrict st0 h
        obtain ⟨st', h1, h2⟩ := ih
          (updState acc.1 n
              ⟨(getState acc.1 cur).g_score + (ecost P e : WithTop ℚ), cur⟩,
            acc.2 ++ [QueueEntry.make n
              ((getState acc.1 cur).g_score + (ecost P e : WithTop ℚ))
              (hval P g goal_id n)]) n
          ⟨(getState acc.1 cur).g_score + (ecost P e : WithTop ℚ), cur⟩
          (updState_self _ _ _)
        exact ⟨st', h1, le_trans h2 (le_of_lt hlt)⟩
      · obtain ⟨st', h1, h2⟩ := ih
          (updState acc.1 m
              ⟨(getState acc.1 cur).g_score + (ecost P e : WithTop ℚ), cur⟩,
            acc.2 ++ [QueueEntry.make m
              ((getState acc.1 cur).g_score + (ecost P e : WithTop ℚ))
              (hval P g goal_id m)]) n st0
          ((updState_ne acc.1 m n _ hmn).trans h)
        exact ⟨st', h1, h2⟩

theorem fold_pushes_append (P : PlannerParams) (g : Graph) (goal_id cur : ℤ) :
    ∀ (l : List Edge) (acc : (ℤ → Option NodeState) × List QueueEntry),
      ∃ tail, (l.foldl (relax P g goal_id cur) acc).2 = acc.2 ++ tail := by
  intro l
  induction l with
  | nil => exact fun acc => ⟨[], by simp⟩
  | cons e rest ih =>
    intro acc
    rw [List.foldl]
    rcases relax_cases P g goal_id cur acc e with heq | ⟨m, -, -, heq⟩
    · rw [heq]
      exact ih acc
    · rw [heq]
      obtain ⟨tail, htail⟩ := ih _
      exact ⟨_, htail.trans (List.append_assoc _ _ _)⟩

theorem fold_pushes_inv (P : PlannerParams) (g : Graph) (goal_id cur : ℤ) :
    ∀ (l : List Edge) (acc : (ℤ → Option NodeState) × List QueueEntry)
      (q : QueueEntry), q ∈ (l.foldl (relax P g goal_id cur) acc).2 →
      q ∈ acc.2 ∨ ∃ n gq, q = QueueEntry.make n gq (hval P g goal_id n) ∧
        ∃ st', (l.foldl (relax P g goal_id cur) acc).1 n = some st' ∧
          st'.g_score ≤ gq := by
  intro l
  induction l with
  | nil => exact fun acc q h => Or.inl h
  | cons e rest ih =>
    intro acc q h
    rw [List.foldl] at h ⊢
    rcases relax_cases P g goal_id cur acc e with heq | ⟨m, -, -, heq⟩
    · rw [heq] at h ⊢
      exact ih acc q h
    · rw [heq] at h ⊢
      rcases ih _ q h with hin | good
      · rcases List.mem_append.mp hin with hin | hnew
        · exact Or.inl hin
        · rcases List.mem_singleton.mp hnew with rfl
          refine Or.inr ⟨m, _, rfl, ?_⟩
          obtain ⟨st', h1, h2⟩ := fold_states_mono P g goal_id cur rest
            (updState acc.1 m
                ⟨(getState acc.1 cur).g_score + (ecost P e : WithTop ℚ), cur⟩,
              acc.2 ++ [QueueEntry.make m
                ((getState acc.1 cur).g_score + (ecost P e : WithTop ℚ))
                (hval P g goal_id m)]) m
            ⟨(getState acc.1 cur).g_score + (ecost P e : WithTop ℚ), cur⟩
            (updState_self _ _ _)
          exact ⟨st', h1, h2⟩
      · exact Or.inr good

theorem fold_state_push (P : PlannerParams) (g : Graph) (goal_id cur : ℤ) :
    ∀ (l : List Edge) (acc : (ℤ → Option NodeState) × List QueueEntry)
      (n : ℤ) (st' : NodeState),
      (l.foldl (relax P g goal_id cur) acc).1 n = some st' →
      acc.1 n = some st' ∨
        QueueEntry.make n st'.g_score (hval P g goal_id n) ∈
          (l.foldl (relax P g goal_id cur) acc).2 := by
  intro l
  induction l with
  | nil => exact fun acc n st' h => Or.inl h
  | cons e rest ih =>
    intro acc n st' h
    rw [List.foldl] at h ⊢
    rcases relax_cases P g goal_id cur acc e with heq | ⟨m, -, -, heq⟩
    · rw [heq] at h ⊢
      exact ih acc n st' h
    · rw [heq] at h ⊢
      rcases ih _ n st' h with hacc | hpush
      · by_cases hmn : n = m
        · subst hmn
          have hacc' : some (⟨(getState acc.1 cur).g_score +
              (ecost P e : WithTop ℚ), cur⟩ : NodeState) = some st' :=
            (updState_self acc.1 n _).symm.trans hacc
          obtain ⟨tail, htail⟩ := fold_pushes_append P g goal_id cur rest _
          refine Or.inr ?_
          rw [htail]
          cases Option.some.inj hacc'
          exact List.mem_append.mpr (Or.inl (List.mem_append.mpr (Or.inr
            (List.mem_singleton.mpr rfl))))
        · exact Or.inl ((updState_ne acc.1 m n _ hmn).symm.trans hacc)
      · exact Or.inr hpush

/-! ## Frontier invariants and lazy deletion (claim C9) -/

theorem expand_open_set (P : PlannerParams) (g : Graph) (b c : ℤ)
    (rest : List QueueEntry) (states : ℤ → Option NodeState) (k : ℕ) :
    (expand P g b c rest states k).open_set =
      rest ++ ((g.get_outgoing_edges c).foldl (relax P g b c) (states, [])).2 :=
  rfl

theorem expand_node_states (P : PlannerParams) (g : Graph) (b c : ℤ)
    (rest : List QueueEntry) (states : ℤ → Option NodeState) (k : ℕ) :
    (expand P g b c rest states k).node_states =
      ((g.get_outgoing_edges c).foldl (relax P g b c) (states, [])).1 :=
  rfl

theorem invCore_init (P : PlannerParams) (g : Graph) (a b : ℤ) :
    InvCore P g b (initState P g a b) := by
  refine ⟨?_, ?_, ?_⟩
  · intro q hq
    rcases List.mem_singleton.mp hq with rfl
    rfl
  · intro q hq
    rcases List.mem_singleton.mp hq with rfl
    exact ⟨⟨0, -1⟩, updState_self (fun _ => none) a ⟨0, -1⟩, le_refl _⟩
  · intro st hst
    by_cases hba : b = a
    · subst hba
      cases Option.some.inj ((updState_self (fun _ => none) b ⟨0, -1⟩).symm.trans hst)
      exact ⟨QueueEntry.make b 0
          (heuristic P.hav P.cost_function P.default_speed_mph g b b),
        List.mem_singleton.mpr rfl, rfl, rfl⟩
    · rw [show (initState P g a b).node_states b =
          updState (fun _ => none) a ⟨0, -1⟩ b from rfl,
        updState_ne _ _ _ _ hba] at hst
      cases hst

theorem invCore_step {P : PlannerParams} {g : Graph} {a b : ℤ}
    {s s' : LoopState} (hstep : NextStep P g a b s s')
    (hinv : InvCore P g b s) : InvCore P g b s' := by
  obtain ⟨cur, rest, hpop, hgoal, hcase⟩ := planStep_next_inv hstep
  rcases hcase with ⟨-, rfl⟩ | ⟨-, rfl⟩
  · refine ⟨?_, ?_, ?_⟩
    · intro q hq
      exact hinv.f_eq q (mem_of_mem_rest hpop hq)
    · intro q hq
      exact hinv.entry_bound q (mem_of_mem_rest hpop hq)
    · intro st hst
      obtain ⟨q, hqmem, hqn, hqg⟩ := hinv.goal_entry st hst
      exact ⟨q, mem_rest_of_node_ne hpop hqmem
        (fun hh => hgoal (hh.symm.trans hqn)), hqn, hqg⟩
  · refine ⟨?_, ?_, ?_⟩
    · intro q hq
      rw [expand_open_set] at hq
      rcases List.mem_append.mp hq with hq | hq
      · exact hinv.f_eq q (mem_of_mem_rest hpop hq)
      · rcases fold_pushes_inv P g b cur.node_id _ _ q hq with hnil | ⟨n, gq, rfl, -⟩
        · cases hnil
        · rfl
    · intro q hq
      rw [expand_open_set] at hq
      rw [expand_node_states]
      rcases List.mem_append.mp hq with hq | hq
      · obtain ⟨st, hst, hle⟩ := hinv.entry_bound q (mem_of_mem_rest hpop hq)
        obtain ⟨st', h1, h2⟩ :=
          fold_states_mono P g b cur.node_id _ (s.node_states, []) q.node_id st hst
        exact ⟨st', h1, le_trans h2 hle⟩
      · rcases fold_pushes_inv P g b cur.node_id _ _ q hq with hnil | ⟨n, gq, rfl, st', h1, h2⟩
        · cases hnil
        · exact ⟨st', h1, h2⟩
    · intro st hst
      rw [expand_node_states] at hst
      rw [expand_open_set]
      rcases fold_state_push P g b cur.node_id _ (s.node_states, []) b st hst
          with horig | hpush
      · obtain ⟨q, hqmem, hqn, hqg⟩ := hinv.goal_entry st horig
        exact ⟨q, List.mem_append.mpr (Or.inl (mem_rest_of_node_ne hpop hqmem
          (fun hh => hgoal (hh.symm.trans hqn)))), hqn, hqg⟩
      · exact ⟨QueueEntry.make b st.g_score (hval P g b b),
          List.mem_append.mpr (Or.inr hpush), rfl, rfl⟩

theorem invCore_reachable {P : PlannerParams} {g : Graph} {a b : ℤ}
    {s : LoopState} (h : Reachable P g a b s) : InvCore P g b s := by
  have h' : Relation.ReflTransGen (NextStep P g a b) (initState P g a b) s := h
  clear h
  induction h' with
  | refl => exact invCore_init P g a b
  | tail _ hstep ih => exact invCore_step hstep ih

/-- C9: during any `plan` invocation, a popped frontier entry whose recorded
`g` value is staler (strictly greater) than the node's current best-known `g`
is discarded without expansion and without terminating the search; and the
goal check only ever fires on non-stale pops, because in every reachable
search state a popped goal entry's `g` value equals the goal's current
best-known `g` (so the C++ goal-check-before-staleness-check ordering never
lets a stale goal entry end the search). -/
theorem c9_lazy_deletion {P : PlannerParams} {g : Graph} {a b : ℤ}
    {s : LoopState} {cur : QueueEntry} {rest : List QueueEntry}
    (hr : Reachable P g a b s)
    (hpop : popMin s.open_set = some (cur, rest)) :
    (cur.node_id ≠ b →
      (getState s.node_states cur.node_id).g_score < cur.g_value →
      ∀ wf, planStep P g a b wf s =
        some (.next ⟨rest, s.node_states, s.nodes_explored + 1⟩)) ∧
    (cur.node_id = b →
      cur.g_value = (getState s.node_states cur.node_id).g_score) := by
  constructor
  · intro hne hstale wf
    rw [planStep, hpop]
    dsimp only
    rw [if_neg hne, if_pos hstale]
  · intro hgoal
    have hinv := invCore_reachable hr
    obtain ⟨st, hst, hle⟩ := hinv.entry_bound cur (popMin_mem hpop)
    have hget : getState s.node_states cur.node_id = st := by
      rw [getState, hst]; rfl
    rw [hget]
    by_contra hne
    have hlt : st.g_score < cur.g_value :=
      lt_of_le_of_ne hle (fun hh => hne hh.symm)
    obtain ⟨q, hqmem, hqn, hqg⟩ := hinv.goal_entry st (hgoal ▸ hst)
    have hqf := hinv.f_eq q hqmem
    have hcf := hinv.f_eq cur (popMin_mem hpop)
    have hmin := popMin_min hpop q hqmem
    rw [hqf, hcf, hqn, hgoal, hqg] at hmin
    exact absurd hmin (not_le.mpr (WithTop.add_lt_add_right
      (WithTop.coe_ne_top) hlt))

/-- Witness for C9 at the seeded initial state of the spec §8 scenario. -/
theorem c9_witness :
    (((QueueEntry.make 1 0 (hval Pw Gw 3 1)).node_id ≠ 3 →
      (getState (initState Pw Gw 1 3).node_states
          (QueueEntry.make 1 0 (hval Pw Gw 3 1)).node_id).g_score <
        (QueueEntry.make 1 0 (hval Pw Gw 3 1)).g_value →
      ∀ wf, planStep Pw Gw 1 3 wf (initState Pw Gw 1 3) =
        some (.next ⟨[], (initState Pw Gw 1 3).node_states,
          (initState Pw Gw 1 3).nodes_explored + 1⟩)) ∧
    ((QueueEntry.make 1 0 (hval Pw Gw 3 1)).node_id = 3 →
      (QueueEntry.make 1 0 (hval Pw Gw 3 1)).g_value =
        (getState (initState Pw Gw 1 3).node_states
          (QueueEntry.make 1 0 (hval Pw Gw 3 1)).node_id).g_score)) :=
  c9_lazy_deletion Relation.ReflTransGen.refl rfl

/-! ## Distance-mode congruence (claim C10) -/

theorem core_fields {e1 e2 : Edge} (h : Edge.core e1 = Edge.core e2) :
    e1.source = e2.source ∧ e1.target = e2.target ∧
      e1.distance = e2.distance ∧ e1.oneway = e2.oneway := by
  simp only [Edge.core, Prod.mk.injEq] at h
  exact h

theorem build_adjacency_go_congr :
    ∀ {l1 l2 : List Edge}, CoreEq l1 l2 → ∀ (i : ℕ) (adj : ℤ → List ℕ),
      build_adjacency_go l1 i adj = build_adjacency_go l2 i adj := by
  intro l1 l2 h
  induction h with
  | nil => intro i adj; rfl
  | cons hc _ ih =>
    intro i adj
    simp only [build_adjacency_go]
    obtain ⟨hs, ht, -, hw⟩ := core_fields hc
    rw [hs, ht, hw]
    exact ih _ _

theorem coreEq_getElem {l1 l2 : List Edge} (h : CoreEq l1 l2) :
    ∀ i : ℕ, (l1[i]? = none ∧ l2[i]? = none) ∨
      ∃ e1 e2, l1[i]? = some e1 ∧ l2[i]? = some e2 ∧
        Edge.core e1 = Edge.core e2 := by
  induction h with
  | nil => intro i; exact Or.inl ⟨rfl, rfl⟩
  | cons hc _ ih =>
    intro i
    cases i with
    | zero =>
      rw [List.getElem?_cons_zero, List.getElem?_cons_zero]
      exact Or.inr ⟨_, _, rfl, rfl, hc⟩
    | succ j =>
      rw [List.getElem?_cons_succ, List.getElem?_cons_succ]
      exact ih j

theorem coreEq_filterMap {l1 l2 : List Edge} (h : CoreEq l1 l2) :
    ∀ idxs : List ℕ, CoreEq (idxs.filterMap (fun i => l1[i]?))
      (idxs.filterMap (fun i => l2[i]?)) := by
  intro idxs
  induction idxs with
  | nil => exact List.Forall₂.nil
  | cons i rest ih =>
    rw [List.filterMap_cons, List.filterMap_cons]
    rcases coreEq_getElem h i with ⟨h1, h2⟩ | ⟨e1, e2, h1, h2, hc⟩
    · rw [h1, h2]
      exact ih
    · rw [h1, h2]
      exact List.Forall₂.cons hc ih

theorem get_outgoing_edges_congr {g1 g2 : Graph}
    (he : CoreEq g1.edges g2.edges) (c : ℤ) :
    CoreEq (g1.get_outgoing_edges c) (g2.get_outgoing_edges c) := by
  rw [Graph.get_outgoing_edges, Graph.get_outgoing_edges]
  by_cases hc : c = -1
  · rw [if_pos hc, if_pos hc]
    exact he
  · rw [if_neg hc, if_neg hc, Graph.adjacency_list, Graph.adjacency_list,
      build_adjacency_go_congr he 0 (fun _ => [])]
    exact coreEq_filterMap he _

theorem consider_node_congr {g1 g2 : Graph} (hn : g1.nodes = g2.nodes)
    (hav : ℚ → ℚ → ℚ → ℚ → ℚ) (coord : Coordinates) (st : ℤ × Option ℚ)
    (n : ℤ) : consider_node hav g1 coord st n = consider_node hav g2 coord st n := by
  simp only [consider_node, Graph.get_node, hn]

theorem find_nearest_node_congr {g1 g2 : Graph} (hn : g1.nodes = g2.nodes)
    (he : CoreEq g1.edges g2.edges) (hav : ℚ → ℚ → ℚ → ℚ → ℚ)
    (coord : Coordinates) :
    find_nearest_node hav g1 coord = find_nearest_node hav g2 coord := by
  have hfold : ∀ {l1 l2 : List Edge}, CoreEq l1 l2 → ∀ st : ℤ × Option ℚ,
      l1.foldl (fun st e => consider_node hav g1 coord
        (consider_node hav g1 coord st e.source) e.target) st =
      l2.foldl (fun st e => consider_node hav g2 coord
        (consider_node hav g2 coord st e.source) e.target) st := by
    intro l1 l2 h
    induction h with
    | nil => intro st; rfl
    | cons hc _ ih =>
      intro st
      rw [List.foldl_cons, List.foldl_cons]
      obtain ⟨hs, ht, -, -⟩ := core_fields hc
      rw [hs, ht, consider_node_congr hn hav coord st _,
        consider_node_congr hn hav coord _ _]
      exact ih _
  rw [find_nearest_node, find_nearest_node,
    hfold (get_outgoing_edges_congr he (-1)) ((-1 : ℤ), (none : Option ℚ))]

theorem heuristic_distance_congr {g1 g2 : Graph} (hn : g1.nodes = g2.nodes)
    (hav : ℚ → ℚ → ℚ → ℚ → ℚ) (d1 d2 : ℚ) (c b : ℤ) :
    heuristic hav .DISTANCE d1 g1 c b = heuristic hav .DISTANCE d2 g2 c b := by
  have hhn : heuristic_nodes g1 c b = heuristic_nodes g2 c b := by
    rw [heuristic_nodes, heuristic_nodes, Graph.get_node, Graph.get_node,
      Graph.get_node, Graph.get_node, hn]
  rw [heuristic, heuristic, hhn]

theorem relax_congr {g1 g2 : Graph} (hn : g1.nodes = g2.nodes)
    (hav : ℚ → ℚ → ℚ → ℚ → ℚ) (d1 d2 : ℚ) (c1 c2 : Option Config)
    (b cur : ℤ) (acc : (ℤ → Option NodeState) × List QueueEntry)
    {e1 e2 : Edge} (hc : Edge.core e1 = Edge.core e2) :
    relax ⟨hav, .DISTANCE, d1, c1⟩ g1 b cur acc e1 =
      relax ⟨hav, .DISTANCE, d2, c2⟩ g2 b cur acc e2 := by
  obtain ⟨hs, ht, hd, hw⟩ := core_fields hc
  have hen : edge_neighbor e1 cur = edge_neighbor e2 cur := by
    rw [edge_neighbor, edge_neighbor, hs, ht, hw]
  have hcost : calculate_edge_cost .DISTANCE c1 d1 e1 =
      calculate_edge_cost .DISTANCE c2 d2 e2 := by
    show e1.distance / 1000 = e2.distance / 1000
    rw [hd]
  rw [relax, relax, hen]
  rcases edge_neighbor e2 cur with - | n
  · rfl
  · dsimp only
    rw [hcost, heuristic_distance_congr hn hav d1 d2 n b]

theorem fold_relax_congr {g1 g2 : Graph} (hn : g1.nodes = g2.nodes)
    (hav : ℚ → ℚ → ℚ → ℚ → ℚ) (d1 d2 : ℚ) (c1 c2 : Option Config)
    (b cur : ℤ) :
    ∀ {l1 l2 : List Edge}, CoreEq l1 l2 →
      ∀ acc : (ℤ → Option NodeState) × List QueueEntry,
      l1.foldl (relax ⟨hav, .DISTANCE, d1, c1⟩ g1 b cur) acc =
        l2.foldl (relax ⟨hav, .DISTANCE, d2, c2⟩ g2 b cur) acc := by
  intro l1 l2 h
  induction h with
  | nil => intro acc; rfl
  | cons hc _ ih =>
    intro acc
    rw [List.foldl_cons, List.foldl_cons,
      relax_congr hn hav d1 d2 c1 c2 b cur acc hc]
    exact ih _

theorem expand_congr {g1 g2 : Graph} (hn : g1.nodes = g2.nodes)
    (he : CoreEq g1.edges g2.edges) (hav : ℚ → ℚ → ℚ → ℚ → ℚ)
    (d1 d2 : ℚ) (c1 c2 : Option Config) (b c : ℤ) (rest : List QueueEntry)
    (states : ℤ → Option NodeState) (k : ℕ) :
    expand ⟨hav, .DISTANCE, d1, c1⟩ g1 b c rest states k =
      expand ⟨hav, .DISTANCE, d2, c2⟩ g2 b c rest states k := by
  rw [expand, expand,
    fold_relax_congr hn hav d1 d2 c1 c2 b c (get_outgoing_edges_congr he c)
      (states, [])]

theorem find_edge_match_congr (a b : ℤ) :
    ∀ {l1 l2 : List Edge}, CoreEq l1 l2 →
      (l1.find? (edge_match a b) = none ∧ l2.find? (edge_match a b) = none) ∨
      ∃ e1 e2, l1.find? (edge_match a b) = some e1 ∧
        l2.find? (edge_match a b) = some e2 ∧ Edge.core e1 = Edge.core e2 := by
  intro l1 l2 h
  induction h with
  | @cons e1 e2 t1 t2 hc _ ih =>
    have hm : edge_match a b e1 = edge_match a b e2 := by
      obtain ⟨hs, ht, -, hw⟩ := core_fields hc
      rw [edge_match, edge_match, hs, ht, hw]
    by_cases hp : edge_match a b e2 = true
    · rw [List.find?_cons_of_pos _ (hm.trans hp), List.find?_cons_of_pos _ hp]
      exact Or.inr ⟨e1, e2, rfl, rfl, hc⟩
    · rw [List.find?_cons_of_neg _ (fun hh => hp (hm.symm.trans hh)),
        List.find?_cons_of_neg _ hp]
      exact ih
  | nil => exact Or.inl ⟨rfl, rfl⟩

theorem find_connecting_edge_congr {g1 g2 : Graph}
    (he : CoreEq g1.edges g2.edges) (a b : ℤ) :
    (find_connecting_edge g1 a b = none ∧ find_connecting_edge g2 a b = none) ∨
    ∃ e1 e2, find_connecting_edge g1 a b = some e1 ∧
      find_connecting_edge g2 a b = some e2 ∧ Edge.core e1 = Edge.core e2 := by
  rw [find_connecting_edge, find_connecting_edge]
  exact find_edge_match_congr a b (get_outgoing_edges_congr he a)

theorem accumulate_metrics_congr {g1 g2 : Graph}
    (he : CoreEq g1.edges g2.edges) (hav : ℚ → ℚ → ℚ → ℚ → ℚ)
    (d1 d2 : ℚ) (c1 c2 : Option Config) :
    ∀ path : List ℤ,
      MetricsAgree (accumulate_metrics ⟨hav, .DISTANCE, d1, c1⟩ g1 path)
        (accumulate_metrics ⟨hav, .DISTANCE, d2, c2⟩ g2 path) := by
  intro path
  induction path with
  | nil => exact Or.inr ⟨(0, 0), (0, 0), rfl, rfl, rfl⟩
  | cons a tail ih =>
    cases tail with
    | nil => exact Or.inr ⟨(0, 0), (0, 0), rfl, rfl, rfl⟩
    | cons b rest =>
      rw [accumulate_metrics, accumulate_metrics]
      rcases find_connecting_edge_congr he a b with ⟨h1, h2⟩ |
          ⟨e1, e2, h1, h2, hc⟩
      · rw [h1, h2]
        exact Or.inl ⟨rfl, rfl⟩
      · rw [h1, h2]
        obtain ⟨-, -, hd, -⟩ := core_fields hc
        rcases ih with ⟨hn1, hn2⟩ | ⟨p1, p2, hp1, hp2, hpe⟩
        · rw [hn1, hn2]
          exact Or.inl ⟨rfl, rfl⟩
        · rw [hp1, hp2]
          refine Or.inr ⟨_, _, rfl, rfl, ?_⟩
          dsimp only
          rw [hd, hpe]

theorem reconstruct_congr {g1 g2 : Graph}
    (he : CoreEq g1.edges g2.edges) (hav : ℚ → ℚ → ℚ → ℚ → ℚ)
    (d1 d2 : ℚ) (c1 c2 : Option Config) (states : ℤ → Option NodeState)
    (a b : ℤ) (wf : ℕ) :
    OResultAgree
      (reconstruct_path ⟨hav, .DISTANCE, d1, c1⟩ g1 states a b wf)
      (reconstruct_path ⟨hav, .DISTANCE, d2, c2⟩ g2 states a b wf) := by
  rw [reconstruct_path, reconstruct_path]
  rcases walkParents states wf b with - | op
  · exact Or.inl ⟨rfl, rfl⟩
  · rcases op with - | path0
    · exact Or.inr ⟨{}, {}, rfl, rfl, rfl, rfl, rfl, rfl, rfl⟩
    · dsimp only
      rcases path0.getLast? with - | last
      · exact Or.inr ⟨{}, {}, rfl, rfl, rfl, rfl, rfl, rfl, rfl⟩
      · dsimp only
        by_cases hl : last = a
        · rw [if_pos hl, if_pos hl]
          rcases accumulate_metrics_congr he hav d1 d2 c1 c2 path0.reverse
              with ⟨h1, h2⟩ | ⟨p1, p2, hp1, hp2, hpe⟩
          · rw [h1, h2]
            exact Or.inr ⟨{}, {}, rfl, rfl, rfl, rfl, rfl, rfl, rfl⟩
          · rw [hp1, hp2]
            exact Or.inr ⟨_, _, rfl, rfl, rfl, rfl, hpe, rfl, rfl⟩
        · rw [if_neg hl, if_neg hl]
          exact Or.inr ⟨{}, {}, rfl, rfl, rfl, rfl, rfl, rfl, rfl⟩

theorem planStep_congr {g1 g2 : Graph} (hn : g1.nodes = g2.nodes)
    (he : CoreEq g1.edges g2.edges) (hav : ℚ → ℚ → ℚ → ℚ → ℚ)
    (d1 d2 : ℚ) (c1 c2 : Option Config) (a b : ℤ) (wf : ℕ) (s : LoopState) :
    StepAgree (planStep ⟨hav, .DISTANCE, d1, c1⟩ g1 a b wf s)
      (planStep ⟨hav, .DISTANCE, d2, c2⟩ g2 a b wf s) := by
  rw [planStep, planStep]
  rcases popMin s.open_set with - | ⟨cur, rest⟩
  · exact Or.inr (Or.inl ⟨{}, {}, rfl, rfl, rfl, rfl, rfl, rfl, rfl⟩)
  · dsimp only
    by_cases hg : cur.node_id = b
    · rw [if_pos hg, if_pos hg]
      rcases reconstruct_congr he hav d1 d2 c1 c2 s.node_states a b wf
          with ⟨h1, h2⟩ | ⟨r1, r2, h1, h2, hr⟩
      · rw [h1, h2]
        exact Or.inl ⟨rfl, rfl⟩
      · rw [h1, h2]
        exact Or.inr (Or.inl ⟨_, _, rfl, rfl, hr.1, hr.2.1, hr.2.2.1, rfl,
          hr.2.2.2.2⟩)
    · rw [if_neg hg, if_neg hg]
      by_cases hs : (getState s.node_states cur.node_id).g_score < cur.g_value
      · rw [if_pos hs, if_pos hs]
        exact Or.inr (Or.inr ⟨_, rfl, rfl⟩)
      · rw [if_neg hs, if_neg hs,
          expand_congr hn he hav d1 d2 c1 c2 b cur.node_id rest s.node_states
            (s.nodes_explored + 1)]
        exact Or.inr (Or.inr ⟨_, rfl, rfl⟩)

theorem runLoop_congr {g1 g2 : Graph} (hn : g1.nodes = g2.nodes)
    (he : CoreEq g1.edges g2.edges) (hav : ℚ → ℚ → ℚ → ℚ → ℚ)
    (d1 d2 : ℚ) (c1 c2 : Option Config) (a b : ℤ) (wf : ℕ) :
    ∀ (fuel : ℕ) (s : LoopState),
      OResultAgree (runLoop ⟨hav, .DISTANCE, d1, c1⟩ g1 a b wf fuel s)
        (runLoop ⟨hav, .DISTANCE, d2, c2⟩ g2 a b wf fuel s) := by
  intro fuel
  induction fuel with
  | zero => intro s; exact Or.inl ⟨rfl, rfl⟩
  | succ k ih =>
    intro s
    rw [runLoop, runLoop]
    rcases planStep_congr hn he hav d1 d2 c1 c2 a b wf s
        with ⟨h1, h2⟩ | ⟨r1, r2, h1, h2, hr⟩ | ⟨s', h1, h2⟩
    · rw [h1, h2]
      exact Or.inl ⟨rfl, rfl⟩
    · rw [h1, h2]
      exact Or.inr ⟨r1, r2, rfl, rfl, hr⟩
    · rw [h1, h2]
      exact ih s'

theorem initState_congr {g1 g2 : Graph} (hn : g1.nodes = g2.nodes)
    (hav : ℚ → ℚ → ℚ → ℚ → ℚ) (d1 d2 : ℚ) (c1 c2 : Option Config)
    (a b : ℤ) :
    initState ⟨hav, .DISTANCE, d1, c1⟩ g1 a b =
      initState ⟨hav, .DISTANCE, d2, c2⟩ g2 a b := by
  rw [initState, initState]
  dsimp only
  rw [heuristic_distance_congr hn hav d1 d2 a b]

/-- C10: in distance mode every edge cost is the stored length divided by
1000 and depends on no other attribute; consequently two `plan` runs over
graphs agreeing on node data and on every edge's source, target, length and
one-way flag — but possibly differing in speed limits, highway tags, names,
config tables or default speeds (the data traffic overrides rewrite) —
either both run out of fuel or return results with the same success flag,
path and total distance. -/
theorem c10_distance_mode_independence
    (hav : ℚ → ℚ → ℚ → ℚ → ℚ) (d1 d2 : ℚ) (c1 c2 : Option Config)
    (g1 g2 : Graph) (hn : g1.nodes = g2.nodes)
    (he : CoreEq g1.edges g2.edges) (fuel : ℕ) (sc gc : Coordinates) :
    (∀ e : Edge, calculate_edge_cost .DISTANCE c1 d1 e = e.distance / 1000) ∧
    ((plan ⟨hav, .DISTANCE, d1, c1⟩ g1 fuel sc gc = none ∧
      plan ⟨hav, .DISTANCE, d2, c2⟩ g2 fuel sc gc = none) ∨
     ∃ r1 r2, plan ⟨hav, .DISTANCE, d1, c1⟩ g1 fuel sc gc = some r1 ∧
       plan ⟨hav, .DISTANCE, d2, c2⟩ g2 fuel sc gc = some r2 ∧
       ResultSim r1 r2) := by
  refine ⟨fun e => rfl, ?_⟩
  rw [plan, plan]
  dsimp only
  rw [find_nearest_node_congr hn he hav sc, find_nearest_node_congr hn he hav gc]
  by_cases h0 : find_nearest_node hav g2 sc = -1 ∨ find_nearest_node hav g2 gc = -1
  · rw [if_pos h0, if_pos h0]
    exact Or.inr ⟨{}, {}, rfl, rfl, rfl, rfl, rfl⟩
  · rw [if_neg h0, if_neg h0, initState_congr hn hav d1 d2 c1 c2 _ _]
    rcases runLoop_congr hn he hav d1 d2 c1 c2
        (find_nearest_node hav g2 sc) (find_nearest_node hav g2 gc) fuel fuel
        (initState ⟨hav, .DISTANCE, d2, c2⟩ g2 (find_nearest_node hav g2 sc)
          (find_nearest_node hav g2 gc))
        with ⟨h1, h2⟩ | ⟨r1, r2, h1, h2, hr⟩
    · exact Or.inl ⟨h1, h2⟩
    · exact Or.inr ⟨r1, r2, h1, h2, hr.1, hr.2.1, hr.2.2.1⟩

/-- Witness for C10: the spec §8 graph against the same graph with a speed
limit and highway tags added; distance-mode runs agree. -/
theorem c10_witness :
    (Gw.nodes = Gw2.nodes ∧ CoreEq Gw.edges Gw2.edges) ∧
    ((∀ e : Edge, calculate_edge_cost .DISTANCE none (25 : ℚ) e =
        e.distance / 1000) ∧
     ((plan ⟨sqDist, .DISTANCE, 25, none⟩ Gw 10 ⟨0, 0⟩ ⟨0, 2⟩ = none ∧
       plan ⟨sqDist, .DISTANCE, 40, none⟩ Gw2 10 ⟨0, 0⟩ ⟨0, 2⟩ = none) ∨
      ∃ r1 r2, plan ⟨sqDist, .DISTANCE, 25, none⟩ Gw 10 ⟨0, 0⟩ ⟨0, 2⟩ = some r1 ∧
        plan ⟨sqDist, .DISTANCE, 40, none⟩ Gw2 10 ⟨0, 0⟩ ⟨0, 2⟩ = some r2 ∧
        ResultSim r1 r2)) :=
  ⟨⟨rfl, List.Forall₂.cons rfl (List.Forall₂.cons rfl List.Forall₂.nil)⟩,
   c10_distance_mode_independence sqDist 25 40 none none Gw Gw2 rfl
     (List.Forall₂.cons rfl (List.Forall₂.cons rfl List.Forall₂.nil))
     10 ⟨0, 0⟩ ⟨0, 2⟩⟩

/-! ## Search completeness infrastructure (claim C1) -/

theorem edge_neighbor_inv {e : Edge} {c n : ℤ} (h : edge_neighbor e c = some n) :
    (e.source = c ∧ n = e.target) ∨
      (e.oneway = false ∧ e.target = c ∧ n = e.source) := by
  rw [edge_neighbor] at h
  by_cases hs : e.source = c
  · rw [if_pos hs] at h
    exact Or.inl ⟨hs, (Option.some.inj h).symm⟩
  · rw [if_neg hs] at h
    by_cases ht : e.oneway = false ∧ e.target = c
    · rw [if_pos ht] at h
      exact Or.inr ⟨ht.1, ht.2, (Option.some.inj h).symm⟩
    · rw [if_neg ht] at h
      cases h

theorem mem_endpointFoldr {x : ℤ} : ∀ {l : List Edge},
    x ∈ l.foldr (fun e s => insert e.source (insert e.target s))
        (∅ : Finset ℤ) ↔
      ∃ e ∈ l, x = e.source ∨ x = e.target := by
  intro l
  induction l with
  | nil => simp
  | cons e rest ih =>
    simp only [List.foldr_cons, Finset.mem_insert, ih, List.mem_cons]
    constructor
    · rintro (h | h | ⟨e', he', hx⟩)
      · exact ⟨e, Or.inl rfl, Or.inl h⟩
      · exact ⟨e, Or.inl rfl, Or.inr h⟩
      · exact ⟨e', Or.inr he', hx⟩
    · rintro ⟨e', rfl | he', hx⟩
      · rcases hx with h | h
        · exact Or.inl h
        · exact Or.inr (Or.inl h)
      · exact Or.inr (Or.inr ⟨e', he', hx⟩)

theorem mem_endpointFinset {g : Graph} {x : ℤ} :
    x ∈ endpointFinset g ↔ ∃ e ∈ g.edges, x = e.source ∨ x = e.target := by
  rw [endpointFinset]
  exact mem_endpointFoldr

theorem neighbor_mem_endpointFinset {g : Graph} {e : Edge} {c n : ℤ}
    (he : e ∈ g.edges) (h : edge_neighbor e c = some n) :
    n ∈ endpointFinset g := by
  rcases edge_neighbor_inv h with ⟨-, rfl⟩ | ⟨-, -, rfl⟩
  · exact mem_endpointFinset.mpr ⟨e, he, Or.inr rfl⟩
  · exact mem_endpointFinset.mpr ⟨e, he, Or.inl rfl⟩

theorem neg_one_not_mem_universe {g : Graph} {a : ℤ} (ha : a ≠ -1)
    (hne : ∀ e ∈ g.edges, e.source ≠ -1 ∧ e.target ≠ -1) :
    (-1 : ℤ) ∉ nodeUniverse g a := by
  rw [nodeUniverse]
  intro h
  rcases Finset.mem_insert.mp h with h | h
  · exact ha h.symm
  · obtain ⟨e, he, hx⟩ := mem_endpointFinset.mp h
    rcases hx with hx | hx
    · exact (hne e he).1 hx.symm
    · exact (hne e he).2 hx.symm

theorem ecost_mem_gMonoid {P : PlannerParams} {g : Graph} {e : Edge}
    (he : e ∈ g.edges) : ecost P e ∈ gMonoid P g :=
  AddSubmonoid.subset_closure ⟨e, he, rfl⟩

theorem gMonoid_nonneg {P : PlannerParams} {g : Graph}
    (hpos : ∀ e ∈ g.edges, 0 ≤ ecost P e) {q : ℚ} (hq : q ∈ gMonoid P g) :
    0 ≤ q := by
  refine AddSubmonoid.closure_induction ?_ le_rfl ?_ hq
  · rintro x ⟨e, he, rfl⟩
    exact hpos e he
  · intro x y hx hy hpx hpy
    exact add_nonneg hpx hpy

theorem costRel_wf (P : PlannerParams) (g : Graph)
    (hpos : ∀ e ∈ g.edges, 0 ≤ ecost P e) : WellFounded (costRel P g) := by
  have hfin : (costSet P g).Finite := by
    have hsub : costSet P g ⊆ (fun e => ecost P e) '' {e | e ∈ g.edges} := by
      rintro q ⟨e, he, rfl⟩
      exact ⟨e, he, rfl⟩
    exact Set.Finite.subset ((g.edges.finite_toSet).image _) hsub
  have hpwo : Set.IsPWO (AddSubmonoid.closure (costSet P g) : Set ℚ) := by
    refine Set.IsPWO.addSubmonoid_closure ?_ hfin.isPWO
    rintro q ⟨e, he, rfl⟩
    exact hpos e he
  have h2 := Set.wellFoundedOn_iff.mp hpwo.isWF
  have h3 : ∀ x y : ℚ, costRel P g x y ↔
      (x < y ∧ x ∈ (AddSubmonoid.closure (costSet P g) : Set ℚ) ∧
        y ∈ (AddSubmonoid.closure (costSet P g) : Set ℚ)) := by
    intro x y
    exact Iff.rfl
  refine Subrelation.wf (fun {x y} hxy => ?_) h2
  exact (h3 x y).mp hxy

theorem stepMeasureRel_wf (P : PlannerParams) (g : Graph) (a : ℤ)
    (hpos : ∀ e ∈ g.edges, 0 ≤ ecost P e) :
    WellFounded (stepMeasureRel P g a) := by
  have hfull : WellFounded
      (Prod.Lex (· < · : ℕ → ℕ → Prop)
        (Prod.Lex (costRel P g) (· < · : ℕ → ℕ → Prop))) :=
    WellFounded.prod_lex Nat.lt_wfRel.wf
      (WellFounded.prod_lex (costRel_wf P g hpos) Nat.lt_wfRel.wf)
  exact InvImage.wf (measureTriple g a) hfull

theorem walkParents_mono {states : ℤ → Option NodeState} :
    ∀ {k k' : ℕ} {x : ℤ} {r : Option (List ℤ)},
      walkParents states k x = some r → k ≤ k' →
      walkParents states k' x = some r := by
  intro k
  induction k with
  | zero =>
    intro k' x r h
    cases h
  | succ n ih =>
    intro k' x r h hk
    obtain ⟨m, rfl⟩ : ∃ m, k' = m + 1 := ⟨k' - 1, by omega⟩
    rw [walkParents] at h ⊢
    by_cases hx : x = -1
    · rw [if_pos hx] at h ⊢
      exact h
    · rw [if_neg hx] at h ⊢
      rcases hst : states x with - | st
      · rw [hst] at h
        exact h
      · rw [hst] at h
        dsimp only at h ⊢
        rcases hw : walkParents states n st.parent_id with - | w
        · rw [hw] at h
          exact Option.noConfusion h
        · rw [hw] at h
          rw [ih hw (by omega)]
          exact h

theorem reaches_walk {P : PlannerParams} {g : Graph} {a : ℤ}
    {states : ℤ → Option NodeState} (hinv : StatesInv P g a states)
    (hu : (-1 : ℤ) ∉ nodeUniverse g a) :
    ∀ {x : ℤ}, ReachesStart states a x →
      ∃ k path0, walkParents states k x = some (some path0) ∧
        path0.head? = some x ∧ path0.getLast? = some a ∧
        List.Chain' (fun u v => ∃ e ∈ g.edges, edge_neighbor e v = some u)
          path0 := by
  have hane : a ≠ -1 := by
    intro h
    exact hu (h ▸ Finset.mem_insert_self a (endpointFinset g))
  intro x hx
  induction hx with
  | base =>
    refine ⟨2, [a], ?_, rfl, rfl, List.chain'_singleton a⟩
    have h1 : walkParents states 1 (-1) = some (some []) := by
      rw [walkParents, if_pos rfl]
    rw [walkParents, if_neg hane, hinv.start_state]
    dsimp only
    rw [h1]
  | @step n st hn hne hp ih =>
    obtain ⟨k, p, hw, hh, hl, hc⟩ := ih
    have hnne : n ≠ -1 := fun h => hu (h ▸ hinv.mapped_mem n st hn)
    refine ⟨k + 1, n :: p, ?_, rfl, ?_, ?_⟩
    · rw [walkParents, if_neg hnne, hn]
      dsimp only
      rw [hw]
    · cases p with
      | nil => cases hl
      | cons q qs =>
        rw [List.getLast?_cons_cons]
        exact hl
    · refine List.chain'_cons'.mpr ⟨?_, hc⟩
      intro y hy
      rw [hh] at hy
      cases Option.some.inj hy
      obtain ⟨e, he, hen, -⟩ := hinv.parent_edge n st hn hne
      exact ⟨e, he, hen⟩

theorem accumulate_of_chain {P : PlannerParams} {g : Graph} :
    ∀ {l : List ℤ},
      List.Chain' (fun u v => ∃ e ∈ g.edges, edge_neighbor e u = some v) l →
      ∃ dt, accumulate_metrics P g l = some dt := by
  intro l
  induction l with
  | nil => exact fun h => ⟨(0, 0), rfl⟩
  | cons u rest ih =>
    intro h
    cases rest with
    | nil => exact ⟨(0, 0), rfl⟩
    | cons v rest2 =>
      obtain ⟨hhead, htail⟩ := List.chain'_cons'.mp h
      obtain ⟨e, he, hen⟩ := hhead v rfl
      have hcond : (e.source = u ∧ e.target = v) ∨
          (e.oneway = false ∧ e.target = u ∧ e.source = v) := by
        rcases edge_neighbor_inv hen with ⟨h1, h2⟩ | ⟨h1, h2, h3⟩
        · exact Or.inl ⟨h1, h2.symm⟩
        · exact Or.inr ⟨h1, h2, h3.symm⟩
      have hsome := find_connecting_edge_isSome he hcond
      obtain ⟨e', he'⟩ := Option.isSome_iff_exists.mp hsome
      obtain ⟨dt2, hdt2⟩ := ih htail
      refine ⟨(e'.distance + dt2.1,
        time_cost_body P.config P.default_speed_mph e' + dt2.2), ?_⟩
      rw [accumulate_metrics, he', hdt2]

theorem reconstruct_of_reaches {P : PlannerParams} {g : Graph} {a b : ℤ}
    {states : ℤ → Option NodeState} (hinv : StatesInv P g a states)
    (hu : (-1 : ℤ) ∉ nodeUniverse g a) {stb : NodeState}
    (hstb : states b = some stb) :
    ∃ k, ∀ wf, k ≤ wf →
      ∃ r0, reconstruct_path P g states a b wf = some r0 ∧
        r0.success = true ∧ r0.path.head? = some a ∧
        r0.path.getLast? = some b := by
  obtain ⟨k, path0, hw, hh, hl, hc⟩ :=
    reaches_walk hinv hu (hinv.reaches b stb hstb)
  refine ⟨k, fun wf hwf => ?_⟩
  have hwmono := walkParents_mono hw hwf
  rw [reconstruct_path, hwmono]
  dsimp only
  rw [hl]
  dsimp only
  rw [if_pos rfl]
  have hchain : List.Chain'
      (fun u v => ∃ e ∈ g.edges, edge_neighbor e u = some v) path0.reverse :=
    List.chain'_reverse.mpr hc
  obtain ⟨dt, hacc⟩ := accumulate_of_chain hchain
  rw [hacc]
  refine ⟨_, rfl, rfl, ?_, ?_⟩
  · rw [List.head?_reverse]
    exact hl
  · rw [List.getLast?_reverse]
    exact hh

theorem fold_states_le (P : PlannerParams) (g : Graph) (goal_id cur : ℤ) :
    ∀ (l : List Edge) (acc : (ℤ → Option NodeState) × List QueueEntry) (n : ℤ),
      (l.foldl (relax P g goal_id cur) acc).1 n = acc.1 n ∨
      ∃ st', (l.foldl (relax P g goal_id cur) acc).1 n = some st' ∧
        (acc.1 n = none ∨
          ∃ st, acc.1 n = some st ∧ st'.g_score < st.g_score) := by
  intro l
  induction l with
  | nil => exact fun acc n => Or.inl rfl
  | cons e rest ih =>
    intro acc n
    rw [List.foldl]
    rcases relax_cases P g goal_id cur acc e with heq | ⟨m, -, hstrict, heq⟩
    · rw [heq]
      exact ih acc n
    · rw [heq]
      by_cases hmn : n = m
      · subst hmn
        rcases ih (updState acc.1 n
            ⟨(getState acc.1 cur).g_score + (ecost P e : WithTop ℚ), cur⟩,
          acc.2 ++ [QueueEntry.make n
            ((getState acc.1 cur).g_score + (ecost P e : WithTop ℚ))
            (hval P g goal_id n)]) n with hsame | ⟨st', hst', hrel⟩
        · refine Or.inr ⟨_, hsame.trans (updState_self _ _ _), ?_⟩
          rcases hb : acc.1 n with - | st0
          · exact Or.inl rfl
          · exact Or.inr ⟨st0, rfl, hstrict st0 hb⟩
        · refine Or.inr ⟨st', hst', ?_⟩
          rcases hb : acc.1 n with - | st0
          · exact Or.inl rfl
          · refine Or.inr ⟨st0, rfl, ?_⟩
            rcases hrel with hnone | ⟨st1, hst1, hlt⟩
            · exact Option.noConfusion
                ((updState_self acc.1 n _).symm.trans hnone)
            · cases Option.some.inj ((updState_self acc.1 n _).symm.trans hst1)
              exact lt_trans hlt (hstrict st0 hb)
      · rcases ih (updState acc.1 m
            ⟨(getState acc.1 cur).g_score + (ecost P e : WithTop ℚ), cur⟩,
          acc.2 ++ [QueueEntry.make m
            ((getState acc.1 cur).g_score + (ecost P e : WithTop ℚ))
            (hval P g goal_id m)]) n with hsame | ⟨st', hst', hrel⟩
        · exact Or.inl (hsame.trans (updState_ne acc.1 m n _ hmn))
        · refine Or.inr ⟨st', hst', ?_⟩
          rcases hrel with hnone | ⟨st1, hst1, hlt⟩
          · exact Or.inl ((updState_ne acc.1 m n _ hmn).symm.trans hnone)
          · exact Or.inr ⟨st1,
              (updState_ne acc.1 m n _ hmn).symm.trans hst1, hlt⟩

theorem fold_change (P : PlannerParams) (g : Graph) (goal_id cur : ℤ) :
    ∀ (l : List Edge) (acc : (ℤ → Option NodeState) × List QueueEntry),
      l.foldl (relax P g goal_id cur) acc = acc ∨
      ∃ n st', (l.foldl (relax P g goal_id cur) acc).1 n = some st' ∧
        (acc.1 n = none ∨
          ∃ st, acc.1 n = some st ∧ st'.g_score < st.g_score) := by
  intro l
  induction l with
  | nil => exact fun acc => Or.inl rfl
  | cons e rest ih =>
    intro acc
    rw [List.foldl]
    rcases relax_cases P g goal_id cur acc e with heq | ⟨m, -, hstrict, heq⟩
    · rw [heq]
      exact ih acc
    · rw [heq]
      refine Or.inr ⟨m, ?_⟩
      rcases fold_states_le P g goal_id cur rest (updState acc.1 m
          ⟨(getState acc.1 cur).g_score + (ecost P e : WithTop ℚ), cur⟩,
        acc.2 ++ [QueueEntry.make m
          ((getState acc.1 cur).g_score + (ecost P e : WithTop ℚ))
          (hval P g goal_id m)]) m with hsame | ⟨st', hst', hrel⟩
      · refine ⟨_, hsame.trans (updState_self _ _ _), ?_⟩
        rcases hb : acc.1 m with - | st0
        · exact Or.inl rfl
        · exact Or.inr ⟨st0, rfl, hstrict st0 hb⟩
      · refine ⟨st', hst', ?_⟩
        rcases hb : acc.1 m with - | st0
        · exact Or.inl rfl
        · refine Or.inr ⟨st0, rfl, ?_⟩
          rcases hrel with hnone | ⟨st1, hst1, hlt⟩
          · exact Option.noConfusion
              ((updState_self acc.1 m _).symm.trans hnone)
          · cases Option.some.inj ((updState_self acc.1 m _).symm.trans hst1)
            exact lt_trans hlt (hstrict st0 hb)

theorem fold_pushes_nil (P : PlannerParams) (g : Graph) (goal_id cur : ℤ) :
    ∀ (l : List Edge) (acc : (ℤ → Option NodeState) × List QueueEntry),
      (l.foldl (relax P g goal_id cur) acc).2 = acc.2 →
      l.foldl (relax P g goal_id cur) acc = acc := by
  intro l
  induction l with
  | nil => exact fun acc h => rfl
  | cons e rest ih =>
    intro acc h
    rw [List.foldl] at h ⊢
    rcases relax_cases P g goal_id cur acc e with heq | ⟨m, -, -, heq⟩
    · rw [heq] at h ⊢
      exact ih acc h
    · rw [heq] at h
      obtain ⟨tail, htail⟩ := fold_pushes_append P g goal_id cur rest _
      rw [htail] at h
      dsimp only at h
      have hlen := congrArg List.length h
      rw [List.length_append, List.length_append] at hlen
      simp only [List.length_cons, List.length_nil] at hlen
      omega

theorem relax_preserves_cur {P : PlannerParams} {g : Graph} {goal_id cur : ℤ}
    {acc : (ℤ → Option NodeState) × List QueueEntry} {e : Edge}
    (hc : 0 ≤ ecost P e) {stc : NodeState} (hcur : acc.1 cur = some stc) :
    (relax P g goal_id cur acc e).1 cur = some stc := by
  rcases relax_cases P g goal_id cur acc e with heq | ⟨m, -, hstrict, heq⟩
  · rw [heq]
    exact hcur
  · rw [heq]
    by_cases hmc : cur = m
    · exfalso
      subst hmc
      have hlt := hstrict stc hcur
      have hget : getState acc.1 cur = stc := by
        rw [getState, hcur]
        rfl
      rw [hget] at hlt
      have hle : stc.g_score ≤ stc.g_score + (ecost P e : WithTop ℚ) := by
        refine le_add_of_nonneg_right ?_
        exact_mod_cast hc
      exact absurd hlt (not_lt.mpr hle)
    · exact (updState_ne acc.1 m cur _ hmc).trans hcur

theorem fold_preserves_cur {P : PlannerParams} {g : Graph} {goal_id cur : ℤ} :
    ∀ {l : List Edge}, (∀ e ∈ l, 0 ≤ ecost P e) →
      ∀ {acc : (ℤ → Option NodeState) × List QueueEntry} {stc : NodeState},
      acc.1 cur = some stc →
      (l.foldl (relax P g goal_id cur) acc).1 cur = some stc := by
  intro l
  induction l with
  | nil => exact fun _ _ _ h => h
  | cons e rest ih =>
    intro hpos acc stc hcur
    rw [List.foldl]
    exact ih (fun e' he' => hpos e' (List.mem_cons_of_mem e he'))
      (relax_preserves_cur (hpos e (List.mem_cons_self e rest)) hcur)

theorem relax_close {P : PlannerParams} {g : Graph} {goal_id cur : ℤ}
    {acc : (ℤ → Option NodeState) × List QueueEntry} {e : Edge} {m : ℤ}
    (hen : edge_neighbor e cur = some m) :
    ∃ stm, (relax P g goal_id cur acc e).1 m = some stm ∧
      stm.g_score ≤ (getState acc.1 cur).g_score + (ecost P e : WithTop ℚ) := by
  rw [relax, hen]
  dsimp only
  rcases hb : acc.1 m with - | st0
  · rw [if_pos rfl]
    exact ⟨_, updState_self _ _ _, by simp [ecost]⟩
  · by_cases hlt : (getState acc.1 cur).g_score + (ecost P e : WithTop ℚ) <
        st0.g_score
    · rw [if_pos (by simpa [ecost] using hlt)]
      exact ⟨_, updState_self _ _ _, by simp [ecost]⟩
    · rw [if_neg (by simpa [ecost] using hlt)]
      exact ⟨st0, hb, by simpa [ecost] using not_lt.mp hlt⟩

theorem fold_closes {P : PlannerParams} {g : Graph} {goal_id cur : ℤ} :
    ∀ {l : List Edge}, (∀ e ∈ l, 0 ≤ ecost P e) →
      ∀ {acc : (ℤ → Option NodeState) × List QueueEntry} {stc : NodeState},
      acc.1 cur = some stc →
      ∀ e ∈ l, ∀ m, edge_neighbor e cur = some m →
      ∃ stm, (l.foldl (relax P g goal_id cur) acc).1 m = some stm ∧
        stm.g_score ≤ stc.g_score + (ecost P e : WithTop ℚ) := by
  intro l
  induction l with
  | nil => exact fun _ _ _ _ e he => absurd he (List.not_mem_nil e)
  | cons e0 rest ih =>
    intro hpos acc stc hcur e he m hen
    rw [List.foldl]
    rcases List.mem_cons.mp he with rfl | hrest
    · obtain ⟨stm, hstm, hle⟩ := @relax_close P g goal_id cur acc e m hen
      obtain ⟨stm', h1, h2⟩ := fold_states_mono P g goal_id cur rest _ m stm hstm
      have hget : getState acc.1 cur = stc := by
        rw [getState, hcur]
        rfl
      rw [hget] at hle
      exact ⟨stm', h1, le_trans h2 hle⟩
    · exact ih (fun e' he' => hpos e' (List.mem_cons_of_mem e0 he'))
        (relax_preserves_cur (hpos e0 (List.mem_cons_self e0 rest)) hcur)
        e hrest m hen

theorem recorded_nonneg {P : PlannerParams} {g : Graph} {a : ℤ}
    {states : ℤ → Option NodeState}
    (hpos : ∀ e ∈ g.edges, 0 ≤ ecost P e) (hinv : StatesInv P g a states)
    {n : ℤ} {st : NodeState} (h : states n = some st) :
    (0 : WithTop ℚ) ≤ st.g_score := by
  obtain ⟨q, hq, hmem⟩ := hinv.mapped_fin n st h
  rw [hq]
  exact_mod_cast gMonoid_nonneg hpos hmem

theorem parent_le {P : PlannerParams} {g : Graph} {a : ℤ}
    {states : ℤ → Option NodeState}
    (hpos : ∀ e ∈ g.edges, 0 ≤ ecost P e) (hinv : StatesInv P g a states)
    {x : ℤ} {st : NodeState} (hx : states x = some st) (hne : x ≠ a) :
    ∃ stp, states st.parent_id = some stp ∧ stp.g_score ≤ st.g_score := by
  obtain ⟨e, he, -, stp, hstp, hle⟩ := hinv.parent_edge x st hx hne
  refine ⟨stp, hstp, le_trans ?_ hle⟩
  refine le_add_of_nonneg_right ?_
  exact_mod_cast hpos e he

theorem reaches_transfer {P : PlannerParams} {g : Graph} {a : ℤ}
    {states : ℤ → Option NodeState} (hinv : StatesInv P g a states)
    (hpos : ∀ e ∈ g.edges, 0 ≤ ecost P e) (n : ℤ) (v : NodeState)
    (bound : WithTop ℚ)
    (hbig : ∀ stn, states n = some stn → bound < stn.g_score) :
    ∀ {x : ℤ}, ReachesStart states a x →
      ∀ stx, states x = some stx → stx.g_score ≤ bound →
      ReachesStart (updState states n v) a x := by
  intro x hx
  induction hx with
  | base => exact fun _ _ _ => ReachesStart.base
  | @step m st hm hne hp ih =>
    intro stx hstx hle
    obtain rfl : st = stx := Option.some.inj (hm.symm.trans hstx)
    have hmn : m ≠ n := by
      intro hh
      subst hh
      exact absurd hle (not_le.mpr (hbig st hm))
    obtain ⟨stp, hstp, hple⟩ := parent_le hpos hinv hm hne
    exact ReachesStart.step ((updState_ne states n m v hmn).trans hm) hne
      (ih stp hstp (le_trans hple hle))

theorem relax_inv_step {P : PlannerParams} {g : Graph} {a b cur : ℤ}
    {acc : (ℤ → Option NodeState) × List QueueEntry} {e : Edge}
    (hpos : ∀ e' ∈ g.edges, 0 ≤ ecost P e') (he : e ∈ g.edges)
    (hinv : StatesInv P g a acc.1) {stc : NodeState}
    (hcur : acc.1 cur = some stc) :
    StatesInv P g a (relax P g b cur acc e).1 := by
  rcases relax_cases P g b cur acc e with heq | ⟨n, hen, hstrict, heq⟩
  · rw [heq]
    exact hinv
  · rw [heq]
    dsimp only
    have hget : getState acc.1 cur = stc := by
      rw [getState, hcur]
      rfl
    rw [hget] at hstrict ⊢
    have hce : (0 : WithTop ℚ) ≤ (ecost P e : WithTop ℚ) := by
      exact_mod_cast hpos e he
    obtain ⟨qc, hqc, hqcm⟩ := hinv.mapped_fin cur stc hcur
    have h0c : (0 : WithTop ℚ) ≤ stc.g_score := by
      rw [hqc]
      exact_mod_cast gMonoid_nonneg hpos hqcm
    have htentpos : (0 : WithTop ℚ) ≤ stc.g_score + (ecost P e : WithTop ℚ) :=
      add_nonneg h0c hce
    have hself : stc.g_score ≤ stc.g_score + (ecost P e : WithTop ℚ) :=
      le_add_of_nonneg_right hce
    have hna : n ≠ a := by
      intro hh
      subst hh
      exact absurd (hstrict ⟨0, -1⟩ hinv.start_state) (not_lt.mpr htentpos)
    have hnc : cur ≠ n := by
      intro hh
      exact absurd (hstrict stc (hh ▸ hcur)) (not_lt.mpr hself)
    have hbig : ∀ stn, acc.1 n = some stn → stc.g_score < stn.g_score :=
      fun stn hstn => lt_of_le_of_lt hself (hstrict stn hstn)
    have hcurT : ReachesStart
        (updState acc.1 n ⟨stc.g_score + (ecost P e : WithTop ℚ), cur⟩) a cur :=
      reaches_transfer hinv hpos n _ stc.g_score hbig
        (hinv.reaches cur stc hcur) stc hcur le_rfl
    have hnew : ReachesStart
        (updState acc.1 n ⟨stc.g_score + (ecost P e : WithTop ℚ), cur⟩) a n :=
      ReachesStart.step (updState_self acc.1 n _) hna hcurT
    have htransfer : ∀ m, ReachesStart acc.1 a m → ReachesStart
        (updState acc.1 n ⟨stc.g_score + (ecost P e : WithTop ℚ), cur⟩) a m := by
      intro m hm
      induction hm with
      | base => exact ReachesStart.base
      | @step m' st' hm' hne' hp' ih' =>
        by_cases hmn : m' = n
        · subst hmn
          exact hnew
        · exact ReachesStart.step ((updState_ne acc.1 n m' _ hmn).trans hm')
            hne' ih'
    refine ⟨?_, ?_, ?_, ?_, ?_⟩
    · exact (updState_ne acc.1 n a _ (fun hh => hna hh.symm)).trans
        hinv.start_state
    · intro m st hm
      by_cases hmn : m = n
      · subst hmn
        rw [nodeUniverse]
        exact Finset.mem_insert_of_mem (neighbor_mem_endpointFinset he hen)
      · exact hinv.mapped_mem m st ((updState_ne acc.1 n m _ hmn).symm.trans hm)
    · intro m st hm
      by_cases hmn : m = n
      · subst hmn
        obtain rfl : (⟨stc.g_score + (ecost P e : WithTop ℚ), cur⟩ : NodeState)
            = st := Option.some.inj ((updState_self acc.1 m _).symm.trans hm)
        refine ⟨qc + ecost P e, ?_, add_mem hqcm (ecost_mem_gMonoid he)⟩
        show stc.g_score + (ecost P e : WithTop ℚ) = _
        rw [hqc]
        exact (WithTop.coe_add _ _).symm
      · exact hinv.mapped_fin m st ((updState_ne acc.1 n m _ hmn).symm.trans hm)
    · intro m st hm hma
      by_cases hmn : m = n
      · subst hmn
        obtain rfl : (⟨stc.g_score + (ecost P e : WithTop ℚ), cur⟩ : NodeState)
            = st := Option.some.inj ((updState_self acc.1 m _).symm.trans hm)
        refine ⟨e, he, hen, stc, ?_, le_rfl⟩
        exact (updState_ne acc.1 m cur _ hnc).trans hcur
      · have hm' : acc.1 m = some st :=
          (updState_ne acc.1 n m _ hmn).symm.trans hm
        obtain ⟨e', he', hen', stp, hstp, hle'⟩ :=
          hinv.parent_edge m st hm' hma
        by_cases hpn : st.parent_id = n
        · refine ⟨e', he', hen',
            ⟨stc.g_score + (ecost P e : WithTop ℚ), cur⟩, ?_, ?_⟩
          · rw [hpn]
            exact updState_self acc.1 n _
          · have hvlt : stc.g_score + (ecost P e : WithTop ℚ) < stp.g_score :=
              hstrict stp (hpn ▸ hstp)
            calc stc.g_score + (ecost P e : WithTop ℚ) +
                  (ecost P e' : WithTop ℚ)
                ≤ stp.g_score + (ecost P e' : WithTop ℚ) :=
                  add_le_add_right (le_of_lt hvlt) _
              _ ≤ st.g_score := hle'
        · exact ⟨e', he', hen', stp,
            (updState_ne acc.1 n _ _ hpn).trans hstp, hle'⟩
    · intro m st hm
      by_cases hmn : m = n
      · subst hmn
        exact hnew
      · exact htransfer m (hinv.reaches m st
          ((updState_ne acc.1 n m _ hmn).symm.trans hm))

theorem fold_inv {P : PlannerParams} {g : Graph} {a b cur : ℤ} :
    ∀ {l : List Edge}, (∀ e ∈ l, e ∈ g.edges) →
      (∀ e ∈ g.edges, 0 ≤ ecost P e) →
      ∀ {acc : (ℤ → Option NodeState) × List QueueEntry} {stc : NodeState},
      StatesInv P g a acc.1 → acc.1 cur = some stc →
      StatesInv P g a ((l.foldl (relax P g b cur) acc).1) := by
  intro l
  induction l with
  | nil => exact fun _ _ _ _ hinv _ => hinv
  | cons e rest ih =>
    intro hmem hpos acc stc hinv hcur
    rw [List.foldl]
    exact ih (fun e' he' => hmem e' (List.mem_cons_of_mem e he')) hpos
      (relax_inv_step hpos (hmem e (List.mem_cons_self e rest)) hinv hcur)
      (relax_preserves_cur (hpos e (hmem e (List.mem_cons_self e rest))) hcur)

theorem mem_rest_of_ne {l : List QueueEntry} {b q : QueueEntry}
    {r : List QueueEntry} (h : popMin l = some (b, r)) (hq : q ∈ l)
    (hne : q ≠ b) : q ∈ r := by
  rcases List.mem_cons.mp ((popMin_perm h).mem_iff.mp hq) with rfl | hr
  · exact absurd rfl hne
  · exact hr

theorem searchInv_init (P : PlannerParams) (g : Graph) (a b : ℤ) :
    SearchInv P g a b (initState P g a b) := by
  refine ⟨invCore_init P g a b, ⟨?_, ?_, ?_, ?_, ?_⟩, ?_⟩
  · exact updState_self (fun _ => none) a ⟨0, -1⟩
  · intro m st hm
    by_cases hma : m = a
    · subst hma
      exact Finset.mem_insert_self m _
    · rw [show (initState P g a b).node_states m =
          updState (fun _ => none) a ⟨0, -1⟩ m from rfl,
        updState_ne _ _ _ _ hma] at hm
      cases hm
  · intro m st hm
    by_cases hma : m = a
    · subst hma
      obtain rfl : (⟨0, -1⟩ : NodeState) = st :=
        Option.some.inj ((updState_self (fun _ => none) m _).symm.trans hm)
      exact ⟨0, (WithTop.coe_zero).symm, zero_mem _⟩
    · rw [show (initState P g a b).node_states m =
          updState (fun _ => none) a ⟨0, -1⟩ m from rfl,
        updState_ne _ _ _ _ hma] at hm
      cases hm
  · intro m st hm hma
    by_cases hma' : m = a
    · exact absurd hma' hma
    · rw [show (initState P g a b).node_states m =
          updState (fun _ => none) a ⟨0, -1⟩ m from rfl,
        updState_ne _ _ _ _ hma'] at hm
      cases hm
  · intro m st hm
    by_cases hma : m = a
    · subst hma
      exact ReachesStart.base
    · rw [show (initState P g a b).node_states m =
          updState (fun _ => none) a ⟨0, -1⟩ m from rfl,
        updState_ne _ _ _ _ hma] at hm
      cases hm
  · intro m st hm
    by_cases hma : m = a
    · subst hma
      obtain rfl : (⟨0, -1⟩ : NodeState) = st :=
        Option.some.inj ((updState_self (fun _ => none) m _).symm.trans hm)
      exact Or.inl ⟨QueueEntry.make m 0
        (heuristic P.hav P.cost_function P.default_speed_mph g m b),
        List.mem_singleton.mpr rfl, rfl, rfl⟩
    · rw [show (initState P g a b).node_states m =
          updState (fun _ => none) a ⟨0, -1⟩ m from rfl,
        updState_ne _ _ _ _ hma] at hm
      cases hm

theorem searchInv_step {P : PlannerParams} {g : Graph} {a b : ℤ}
    (hpos : ∀ e ∈ g.edges, 0 ≤ ecost P e) {s s' : LoopState}
    (hstep : NextStep P g a b s s') (hinv : SearchInv P g a b s) :
    SearchInv P g a b s' := by
  obtain ⟨cur, rest, hpop, hgoal, hcase⟩ := planStep_next_inv hstep
  have hcore' : InvCore P g b s' := invCore_step hstep hinv.core
  rcases hcase with ⟨hstale, rfl⟩ | ⟨hstale, rfl⟩
  · refine ⟨hcore', hinv.states_inv, ?_⟩
    intro m st hm
    rcases hinv.closure m st hm with ⟨q, hq, hqn, hqg⟩ | hclosed
    · refine Or.inl ⟨q, ?_, hqn, hqg⟩
      refine mem_rest_of_ne hpop hq ?_
      intro hqc
      subst hqc
      obtain ⟨stc, hstc, -⟩ := hinv.core.entry_bound q (popMin_mem hpop)
      have hgetc : getState s.node_states q.node_id = stc := by
        rw [getState, hstc]
        rfl
      rw [hgetc] at hstale
      obtain rfl : stc = st := Option.some.inj (hstc.symm.trans (hqn ▸ hm))
      rw [hqg] at hstale
      exact lt_irrefl _ hstale
    · exact Or.inr hclosed
  · obtain ⟨stc, hstc, hscle⟩ := hinv.core.entry_bound cur (popMin_mem hpop)
    have hmemedges : ∀ e ∈ g.get_outgoing_edges cur.node_id, e ∈ g.edges :=
      fun e he => mem_edges_of_mem_get_outgoing he
    refine ⟨hcore', ?_, ?_⟩
    · rw [expand_node_states]
      exact fold_inv hmemedges hpos hinv.states_inv hstc
    · intro m st hm
      rw [expand_node_states] at hm
      rw [expand_open_set]
      rcases fold_state_push P g b cur.node_id _ (s.node_states, []) m st hm
          with horig | hpush
      · rcases hinv.closure m st horig with ⟨q, hq, hqn, hqg⟩ | hclosed
        · by_cases hqc : q = cur
          · subst hqc
            refine Or.inr ?_
            intro e he m' hen'
            rw [← hqn] at hen' horig
            obtain rfl : stc = st := Option.some.inj (hstc.symm.trans horig)
            have hout : e ∈ g.get_outgoing_edges q.node_id := by
              refine traversable_mem_get_outgoing he ?_
              rcases edge_neighbor_inv hen' with ⟨h1, -⟩ | ⟨h1, h2, -⟩
              · exact Or.inl h1.symm
              · exact Or.inr ⟨h1, h2.symm⟩
            obtain ⟨stm, h1, h2⟩ := fold_closes
              (fun e' he' => hpos e' (hmemedges e' he'))
              (show (s.node_states, ([] : List QueueEntry)).1 q.node_id =
                some stc from hstc)
              e hout m' hen'
            exact ⟨stm, h1, h2⟩
          · exact Or.inl ⟨q, List.mem_append.mpr
              (Or.inl (mem_rest_of_ne hpop hq hqc)), hqn, hqg⟩
        · refine Or.inr ?_
          intro e he m' hen'
          obtain ⟨stm, hstm, hle⟩ := hclosed e he m' hen'
          obtain ⟨stm', h1, h2⟩ := fold_states_mono P g b cur.node_id _
            (s.node_states, []) m' stm hstm
          exact ⟨stm', h1, le_trans h2 hle⟩
      · exact Or.inl ⟨QueueEntry.make m st.g_score (hval P g b m),
          List.mem_append.mpr (Or.inr hpush), rfl, rfl⟩

theorem searchInv_reachable {P : PlannerParams} {g : Graph} {a b : ℤ}
    (hpos : ∀ e ∈ g.edges, 0 ≤ ecost P e) {s : LoopState}
    (h : Reachable P g a b s) : SearchInv P g a b s := by
  have h' : Relation.ReflTransGen (NextStep P g a b) (initState P g a b) s := h
  clear h
  induction h' with
  | refl => exact searchInv_init P g a b
  | tail _ hstep ih => exact searchInv_step hpos hstep ih

theorem unmapped_lt_of_record {g : Graph} {a : ℤ}
    {states states' : ℤ → Option NodeState}
    (hmono : ∀ v st, states v = some st → ∃ st2, states' v = some st2)
    {v0 : ℤ} (hv0U : v0 ∈ nodeUniverse g a) (hv0 : states v0 = none)
    {st0 : NodeState} (hv0' : states' v0 = some st0) :
    unmappedCount g a states' < unmappedCount g a states := by
  rw [unmappedCount, unmappedCount]
  refine Finset.card_lt_card ?_
  refine (Finset.ssubset_iff_of_subset ?_).mpr ⟨v0, ?_, ?_⟩
  · intro v hv
    obtain ⟨hvU, hvnone⟩ := Finset.mem_filter.mp hv
    refine Finset.mem_filter.mpr ⟨hvU, ?_⟩
    rcases hsv : states v with - | st
    · rfl
    · obtain ⟨st2, hst2⟩ := hmono v st hsv
      rw [hst2] at hvnone
      cases hvnone
  · exact Finset.mem_filter.mpr ⟨hv0U, hv0⟩
  · intro hmem
    have := (Finset.mem_filter.mp hmem).2
    rw [this] at hv0'
    cases hv0'

theorem mappedSum_rel {P : PlannerParams} {g : Graph} {a : ℤ}
    {states states' : ℤ → Option NodeState}
    (hinv : StatesInv P g a states) (hinv' : StatesInv P g a states')
    (hmono : ∀ v st, states v = some st →
      ∃ st2, states' v = some st2 ∧ st2.g_score ≤ st.g_score)
    (hnonew : ∀ v ∈ nodeUniverse g a, states v = none → states' v = none)
    {n : ℤ} {st' st : NodeState} (hn' : states' n = some st')
    (hn : states n = some st) (hlt : st'.g_score < st.g_score) :
    costRel P g (mappedSum g a states') (mappedSum g a states) ∧
      unmappedCount g a states' = unmappedCount g a states := by
  have hnone_iff : ∀ v ∈ nodeUniverse g a,
      (states' v = none ↔ states v = none) := by
    intro v hv
    constructor
    · intro h'
      rcases hsv : states v with - | stv
      · rfl
      · obtain ⟨st2, hst2, -⟩ := hmono v stv hsv
        rw [hst2] at h'
        cases h'
    · exact hnonew v hv
  have hfilter1 : (nodeUniverse g a).filter (fun v => states' v = none) =
      (nodeUniverse g a).filter (fun v => states v = none) :=
    Finset.filter_congr (fun v hv => hnone_iff v hv)
  have hsome_iff : ∀ v ∈ nodeUniverse g a,
      ((states' v).isSome = true ↔ (states v).isSome = true) := by
    intro v hv
    rw [Option.isSome_iff_ne_none, Option.isSome_iff_ne_none]
    exact not_congr (hnone_iff v hv)
  have hfilter2 : (nodeUniverse g a).filter (fun v => (states' v).isSome) =
      (nodeUniverse g a).filter (fun v => (states v).isSome) :=
    Finset.filter_congr (fun v hv => hsome_iff v hv)
  refine ⟨⟨?_, ?_, ?_⟩, ?_⟩
  · rw [mappedSum, mappedSum, hfilter2]
    refine Finset.sum_lt_sum ?_ ⟨n, ?_, ?_⟩
    · intro v hv
      obtain ⟨hvU, hvs⟩ := Finset.mem_filter.mp hv
      obtain ⟨stv, hstv⟩ := Option.isSome_iff_exists.mp hvs
      obtain ⟨st2, hst2, hle⟩ := hmono v stv hstv
      obtain ⟨q2, hq2, -⟩ := hinv'.mapped_fin v st2 hst2
      obtain ⟨q1, hq1, -⟩ := hinv.mapped_fin v stv hstv
      rw [gValue, gValue, hstv, hst2]
      dsimp only
      rw [hq1, hq2, WithTop.untop'_coe, WithTop.untop'_coe]
      rw [hq1, hq2] at hle
      exact WithTop.coe_le_coe.mp hle
    · refine Finset.mem_filter.mpr ⟨hinv.mapped_mem n st hn, ?_⟩
      rw [hn]
      rfl
    · obtain ⟨q2, hq2, -⟩ := hinv'.mapped_fin n st' hn'
      obtain ⟨q1, hq1, -⟩ := hinv.mapped_fin n st hn
      rw [gValue, gValue, hn, hn']
      dsimp only
      rw [hq1, hq2, WithTop.untop'_coe, WithTop.untop'_coe]
      rw [hq1, hq2] at hlt
      exact WithTop.coe_lt_coe.mp hlt
  · rw [mappedSum]
    refine AddSubmonoid.sum_mem _ ?_
    intro v hv
    obtain ⟨hvU, hvs⟩ := Finset.mem_filter.mp hv
    obtain ⟨stv, hstv⟩ := Option.isSome_iff_exists.mp hvs
    obtain ⟨q, hq, hqm⟩ := hinv'.mapped_fin v stv hstv
    rw [gValue, hstv]
    dsimp only
    rw [hq, WithTop.untop'_coe]
    exact hqm
  · rw [mappedSum]
    refine AddSubmonoid.sum_mem _ ?_
    intro v hv
    obtain ⟨hvU, hvs⟩ := Finset.mem_filter.mp hv
    obtain ⟨stv, hstv⟩ := Option.isSome_iff_exists.mp hvs
    obtain ⟨q, hq, hqm⟩ := hinv.mapped_fin v stv hstv
    rw [gValue, hstv]
    dsimp only
    rw [hq, WithTop.untop'_coe]
    exact hqm
  · rw [unmappedCount, unmappedCount, hfilter1]

theorem measure_decrease {P : PlannerParams} {g : Graph} {a b : ℤ}
    (hpos : ∀ e ∈ g.edges, 0 ≤ ecost P e) {s s' : LoopState}
    (hinv : SearchInv P g a b s) (hstep : NextStep P g a b s s') :
    stepMeasureRel P g a s' s := by
  have hinv' : SearchInv P g a b s' := searchInv_step hpos hstep hinv
  obtain ⟨cur, rest, hpop, hgoal, hcase⟩ := planStep_next_inv hstep
  rcases hcase with ⟨hstale, rfl⟩ | ⟨hstale, rfl⟩
  · rw [stepMeasureRel, measureTriple, measureTriple]
    dsimp only
    refine Prod.Lex.right _ (Prod.Lex.right _ ?_)
    rw [popMin_length hpop]
    exact Nat.lt_succ_self _
  · rw [stepMeasureRel, measureTriple, measureTriple]
    have hns : (expand P g b cur.node_id rest s.node_states
        (s.nodes_explored + 1)).node_states =
        ((g.get_outgoing_edges cur.node_id).foldl
          (relax P g b cur.node_id) (s.node_states, [])).1 :=
      expand_node_states P g b cur.node_id rest s.node_states
        (s.nodes_explored + 1)
    have hos : (expand P g b cur.node_id rest s.node_states
        (s.nodes_explored + 1)).open_set =
        rest ++ ((g.get_outgoing_edges cur.node_id).foldl
          (relax P g b cur.node_id) (s.node_states, [])).2 :=
      expand_open_set P g b cur.node_id rest s.node_states
        (s.nodes_explored + 1)
    rw [hns, hos]
    have hinvF : StatesInv P g a
        ((g.get_outgoing_edges cur.node_id).foldl
          (relax P g b cur.node_id) (s.node_states, [])).1 := by
      have h1 := hinv'.states_inv
      rw [hns] at h1
      exact h1
    rcases fold_change P g b cur.node_id (g.get_outgoing_edges cur.node_id)
        (s.node_states, []) with hsame | ⟨n, st', hst', hrel⟩
    · have hfst := congrArg Prod.fst hsame
      have hsnd := congrArg Prod.snd hsame
      dsimp only at hfst hsnd
      rw [hfst, hsnd, List.append_nil]
      refine Prod.Lex.right _ (Prod.Lex.right _ ?_)
      rw [popMin_length hpop]
      exact Nat.lt_succ_self _
    · have hmono : ∀ v st, s.node_states v = some st →
          ∃ st2, ((g.get_outgoing_edges cur.node_id).foldl
            (relax P g b cur.node_id) (s.node_states, [])).1 v = some st2 ∧
            st2.g_score ≤ st.g_score :=
        fun v st hv => fold_states_mono P g b cur.node_id _ _ v st hv
      by_cases hnewrec : ∃ v, v ∈ nodeUniverse g a ∧ s.node_states v = none ∧
          (((g.get_outgoing_edges cur.node_id).foldl
            (relax P g b cur.node_id) (s.node_states, [])).1 v).isSome
      · obtain ⟨v0, hv0U, hv0n, hv0s⟩ := hnewrec
        obtain ⟨st0, hst0⟩ := Option.isSome_iff_exists.mp hv0s
        refine Prod.Lex.left _ _ ?_
        exact unmapped_lt_of_record
          (fun v st hv => ⟨(hmono v st hv).choose, (hmono v st hv).choose_spec.1⟩)
          hv0U hv0n hst0
      · have hnonew : ∀ v ∈ nodeUniverse g a, s.node_states v = none →
            ((g.get_outgoing_edges cur.node_id).foldl
              (relax P g b cur.node_id) (s.node_states, [])).1 v = none := by
          intro v hv hvn
          rcases hF : ((g.get_outgoing_edges cur.node_id).foldl
              (relax P g b cur.node_id) (s.node_states, [])).1 v with - | st2
          · rfl
          · exact absurd ⟨v, hv, hvn, by rw [hF]; rfl⟩ hnewrec
        have hsn : ∃ st, s.node_states n = some st ∧
            st'.g_score < st.g_score := by
          rcases hrel with hnone | hsome
          · exfalso
            refine hnewrec ⟨n, ?_, hnone, by rw [hst']; rfl⟩
            exact hinvF.mapped_mem n st' hst'
          · exact hsome
        obtain ⟨st, hn, hlt⟩ := hsn
        obtain ⟨hcost, huneq⟩ := mappedSum_rel hinv.states_inv hinvF hmono
          hnonew hst' hn hlt
        rw [huneq]
        exact Prod.Lex.right _ (Prod.Lex.left _ _ hcost)

theorem planStep_next_wf_irrel {P : PlannerParams} {g : Graph} {a b : ℤ}
    {s s1 : LoopState} (h : NextStep P g a b s s1) (wf : ℕ) :
    planStep P g a b wf s = some (.next s1) := by
  obtain ⟨cur, rest, hpop, hgoal, hcase⟩ := planStep_next_inv h
  rcases hcase with ⟨hstale, rfl⟩ | ⟨hstale, rfl⟩
  · rw [planStep, hpop]
    dsimp only
    rw [if_neg hgoal, if_pos hstale]
  · rw [planStep, hpop]
    dsimp only
    rw [if_neg hgoal, if_neg hstale]

theorem reachable_of_iterNext {P : PlannerParams} {g : Graph} {a b : ℤ} :
    ∀ {j : ℕ} {s s' : LoopState}, IterNext P g a b j s s' →
      Reachable P g a b s → Reachable P g a b s' := by
  intro j
  induction j with
  | zero =>
    intro s s' h hr
    have heq : s = s' := h
    exact heq ▸ hr
  | succ n ih =>
    intro s s' h hr
    obtain ⟨s'', hstep, hit⟩ := h
    exact ih hit (hr.tail hstep)

theorem runLoop_of_iter {P : PlannerParams} {g : Graph} {a b : ℤ} {wf : ℕ} :
    ∀ {j : ℕ} {s s' : LoopState} {r : PlannerResult},
      IterNext P g a b j s s' →
      planStep P g a b wf s' = some (.done r) →
      ∀ {f : ℕ}, j + 1 ≤ f → runLoop P g a b wf f s = some r := by
  intro j
  induction j with
  | zero =>
    intro s s' r hiter hstep f hf
    have heq : s = s' := hiter
    subst heq
    obtain ⟨m, rfl⟩ : ∃ m, f = m + 1 := ⟨f - 1, by omega⟩
    rw [runLoop, hstep]
  | succ n ih =>
    intro s s' r hiter hstep f hf
    obtain ⟨s'', hns, hit⟩ := hiter
    obtain ⟨m, rfl⟩ : ∃ m, f = m + 1 := ⟨f - 1, by omega⟩
    rw [runLoop, planStep_next_wf_irrel hns wf]
    exact ih hit hstep (by omega)

theorem goal_pop_exists {P : PlannerParams} {g : Graph} {a b : ℤ}
    (hpos : ∀ e ∈ g.edges, 0 ≤ ecost P e) (hconn : Connected g a b)
    (s : LoopState) :
    Reachable P g a b s →
      ∃ j s' cur rest, IterNext P g a b j s s' ∧
        popMin s'.open_set = some (cur, rest) ∧ cur.node_id = b := by
  refine (stepMeasureRel_wf P g a hpos).induction
    (C := fun s => Reachable P g a b s →
      ∃ j s' cur rest, IterNext P g a b j s s' ∧
        popMin s'.open_set = some (cur, rest) ∧ cur.node_id = b) s ?_
  clear s
  intro s IH hr
  have hinv : SearchInv P g a b s := searchInv_reachable hpos hr
  rcases hpop : popMin s.open_set with - | ⟨cur, rest⟩
  · exfalso
    have hopen : s.open_set = [] := popMin_eq_none_iff _ |>.mp hpop
    have hclosed : ∀ n st, s.node_states n = some st →
        ∀ e ∈ g.edges, ∀ m, edge_neighbor e n = some m →
        ∃ stm, s.node_states m = some stm := by
      intro n st hst e he m hm
      rcases hinv.closure n st hst with ⟨q, hq, -⟩ | h
      · rw [hopen] at hq
        exact absurd hq (List.not_mem_nil q)
      · obtain ⟨stm, hstm, -⟩ := h e he m hm
        exact ⟨stm, hstm⟩
    have hrec : ∀ x, Relation.ReflTransGen (traversable_step g) a x →
        ∃ st, s.node_states x = some st := by
      intro x hx
      induction hx with
      | refl => exact ⟨_, hinv.states_inv.start_state⟩
      | tail _ hstep ih =>
        obtain ⟨st1, hst1⟩ := ih
        obtain ⟨e, he, hen⟩ := hstep
        exact hclosed _ _ hst1 e he _ hen
    obtain ⟨stb, hstb⟩ := hrec b hconn
    obtain ⟨q, hq, -⟩ := hinv.core.goal_entry stb hstb
    rw [hopen] at hq
    exact absurd hq (List.not_mem_nil q)
  · by_cases hgoal : cur.node_id = b
    · exact ⟨0, s, cur, rest, rfl, hpop, hgoal⟩
    · by_cases hstale : (getState s.node_states cur.node_id).g_score <
          cur.g_value
      · have hstep : NextStep P g a b s
            ⟨rest, s.node_states, s.nodes_explored + 1⟩ := by
          show planStep P g a b 0 s = _
          rw [planStep, hpop]
          dsimp only
          rw [if_neg hgoal, if_pos hstale]
        obtain ⟨j, s', cur', rest', hiter, hpop', hgoal'⟩ :=
          IH _ (measure_decrease hpos hinv hstep) (hr.tail hstep)
        exact ⟨j + 1, s', cur', rest', ⟨_, hstep, hiter⟩, hpop', hgoal'⟩
      · have hstep : NextStep P g a b s
            (expand P g b cur.node_id rest s.node_states
              (s.nodes_explored + 1)) := by
          show planStep P g a b 0 s = _
          rw [planStep, hpop]
          dsimp only
          rw [if_neg hgoal, if_neg hstale]
        obtain ⟨j, s', cur', rest', hiter, hpop', hgoal'⟩ :=
          IH _ (measure_decrease hpos hinv hstep) (hr.tail hstep)
        exact ⟨j + 1, s', cur', rest', ⟨_, hstep, hiter⟩, hpop', hgoal'⟩

/-- C1 (amended): over any graph whose edge costs are nonnegative, whose
edge endpoints never carry the reserved sentinel id `-1`, and whose edges
reference only nodes present in the node map (together with the resolved
endpoints being mapped — automatic for `find_nearest_node` outputs — this
keeps every `get_node` dereference of the unchecked C++ `heuristic`
defined, excluding the claim C4 crash inputs), whenever both coordinates
resolve to nodes (ids ≠ -1) connected by a traversable path, some fuel
budget makes `plan` return `success = true` with a path whose first
element is the resolved start id and whose last element is the resolved
goal id; and at every fuel budget a failure result carries an empty path.
(The sentinel restriction is necessary: a real node with id `-1` on the
path breaks predecessor-chain reconstruction, see the counterexample;
nonnegative costs hold for the OSM data model, where edge lengths and
speeds are positive.) -/
theorem c1_path_endpoints_amended (P : PlannerParams) (g : Graph)
    (sc gc : Coordinates) (a b : ℤ)
    (hra : find_nearest_node P.hav g sc = a)
    (hrb : find_nearest_node P.hav g gc = b)
    (ha : a ≠ -1) (hb : b ≠ -1)
    (hpos : ∀ e ∈ g.edges, 0 ≤ ecost P e)
    (hne : ∀ e ∈ g.edges, e.source ≠ -1 ∧ e.target ≠ -1)
    (_hwf : ∀ e ∈ g.edges,
      (g.get_node e.source).isSome ∧ (g.get_node e.target).isSome)
    (_hga : (g.get_node a).isSome) (_hgb : (g.get_node b).isSome)
    (hconn : Connected g a b) :
    (∃ fuel r, plan P g fuel sc gc = some r ∧ r.success = true ∧
      r.path.head? = some a ∧ r.path.getLast? = some b) ∧
    (∀ fuel r, plan P g fuel sc gc = some r → r.success = false →
      r.path = []) := by
  refine ⟨?_, fun fuel r h hs => plan_failure_empty h hs⟩
  obtain ⟨j, s', cur, rest, hiter, hpop, hgoal⟩ :=
    goal_pop_exists hpos hconn (initState P g a b) Relation.ReflTransGen.refl
  have hr' : Reachable P g a b s' :=
    reachable_of_iterNext hiter Relation.ReflTransGen.refl
  have hinv' := searchInv_reachable hpos hr'
  obtain ⟨stb, hstb, -⟩ := hinv'.core.entry_bound cur (popMin_mem hpop)
  rw [hgoal] at hstb
  have hu : (-1 : ℤ) ∉ nodeUniverse g a := neg_one_not_mem_universe ha hne
  obtain ⟨k, hrec⟩ := reconstruct_of_reaches hinv'.states_inv hu hstb
  obtain ⟨r0, hrec0, hs0, hhead, hlast⟩ := hrec (j + 1 + k) (by omega)
  have hstep : planStep P g a b (j + 1 + k) s' =
      some (.done { r0 with num_nodes_explored := s'.nodes_explored + 1 }) := by
    rw [planStep, hpop]
    dsimp only
    rw [if_pos hgoal, hrec0]
  have hrun : runLoop P g a b (j + 1 + k) (j + 1 + k)
      (initState P g a b) =
      some { r0 with num_nodes_explored := s'.nodes_explored + 1 } :=
    runLoop_of_iter hiter hstep (by omega)
  refine ⟨j + 1 + k,
    { r0 with num_nodes_explored := s'.nodes_explored + 1 }, ?_,
    hs0, hhead, hlast⟩
  rw [plan]
  rw [hra, hrb, if_neg (not_or.mpr ⟨ha, hb⟩)]
  exact hrun

/-- Witness for the amended C1 on the spec §8 graph: both coordinates
resolve, the endpoints are connected, all amended side conditions hold, and
the theorem yields the successful distance-mode route from node 1 to 3. -/
theorem c1_witness :
    (find_nearest_node Pw.hav Gw ⟨0, 0⟩ = 1 ∧
     find_nearest_node Pw.hav Gw ⟨0, 2⟩ = 3 ∧
     (∀ e ∈ Gw.edges, 0 ≤ ecost Pw e) ∧
     (∀ e ∈ Gw.edges, e.source ≠ -1 ∧ e.target ≠ -1) ∧
     (∀ e ∈ Gw.edges,
       (Gw.get_node e.source).isSome ∧ (Gw.get_node e.target).isSome) ∧
     (Gw.get_node 1).isSome ∧ (Gw.get_node 3).isSome ∧
     Connected Gw 1 3) ∧
    ((∃ fuel r, plan Pw Gw fuel ⟨0, 0⟩ ⟨0, 2⟩ = some r ∧ r.success = true ∧
        r.path.head? = some 1 ∧ r.path.getLast? = some 3) ∧
     (∀ fuel r, plan Pw Gw fuel ⟨0, 0⟩ ⟨0, 2⟩ = some r →
        r.success = false → r.path = [])) := by
  have hconn : Connected Gw 1 3 := by
    have h1 : traversable_step Gw 1 2 :=
      ⟨⟨1, 2, 1000, none, none, none, false⟩, by decide, by decide⟩
    have h2 : traversable_step Gw 2 3 :=
      ⟨⟨2, 3, 1000, none, none, none, false⟩, by decide, by decide⟩
    exact Relation.ReflTransGen.tail
      (Relation.ReflTransGen.tail Relation.ReflTransGen.refl h1) h2
  exact ⟨⟨by decide, by decide, by decide, by decide, by decide, by decide,
      by decide, hconn⟩,
    c1_path_endpoints_amended Pw Gw ⟨0, 0⟩ ⟨0, 2⟩ 1 3 (by decide) (by decide)
      (by decide) (by decide) (by decide) (by decide) (by decide) (by decide)
      (by decide) hconn⟩

theorem gce_plan_succ (m : ℕ) :
    plan Pw Gce (m + 3) ⟨0, 0⟩ ⟨0, 2⟩ =
      some ⟨false, [], 0, 0, 3, ""⟩ := rfl

theorem gce_plan_zero : plan Pw Gce 0 ⟨0, 0⟩ ⟨0, 2⟩ = none := rfl

theorem gce_plan_one : plan Pw Gce 1 ⟨0, 0⟩ ⟨0, 2⟩ = none := rfl

theorem gce_plan_two : plan Pw Gce 2 ⟨0, 0⟩ ⟨0, 2⟩ = none := rfl

/-- Counterexample to C1 as stated: on `Gce` both coordinates resolve (to
1 and 3, neither `-1`), and the resolved nodes are connected by a
traversable path — but the middle node carries the reserved id `-1`, so the
predecessor walk of `reconstruct_path` stops at it (mistaking it for the
"no parent" sentinel), the rebuilt path `[3]` does not start at node 1, and
`plan` reports failure at every sufficient fuel budget (and is still
looping below it): no fuel ever produces a successful result. -/
theorem c1_sentinel_counterexample :
    (find_nearest_node Pw.hav Gce ⟨0, 0⟩ = 1 ∧
     find_nearest_node Pw.hav Gce ⟨0, 2⟩ = 3 ∧
     (1 : ℤ) ≠ -1 ∧ (3 : ℤ) ≠ -1 ∧ Connected Gce 1 3) ∧
    ¬ ∃ fuel r, plan Pw Gce fuel ⟨0, 0⟩ ⟨0, 2⟩ = some r ∧
      r.success = true := by
  constructor
  · refine ⟨by decide, by decide, by decide, by decide, ?_⟩
    have h1 : traversable_step Gce 1 (-1) :=
      ⟨⟨1, -1, 1000, none, none, none, false⟩, by decide, by decide⟩
    have h2 : traversable_step Gce (-1) 3 :=
      ⟨⟨-1, 3, 1000, none, none, none, false⟩, by decide, by decide⟩
    exact Relation.ReflTransGen.tail
      (Relation.ReflTransGen.tail Relation.ReflTransGen.refl h1) h2
  · rintro ⟨fuel, r, hp, hs⟩
    rcases fuel with - | - | - | m
    · exact Option.noConfusion (gce_plan_zero.symm.trans hp)
    · exact Option.noConfusion (gce_plan_one.symm.trans hp)
    · exact Option.noConfusion (gce_plan_two.symm.trans hp)
    · have hp' : plan Pw Gce (m + 3) ⟨0, 0⟩ ⟨0, 2⟩ = some r := hp
      obtain rfl : (⟨false, [], 0, 0, 3, ""⟩ : PlannerResult) = r :=
        Option.some.inj ((gce_plan_succ m).symm.trans hp')
      exact Bool.noConfusion hs

end RoutePlanner
